import Mathlib

/-!
Verification of the liquibase-clickhouse change orchestrator.

This file gives a shallow embedding of the Python sources in
src/liquibase_clickhouse (changelog.py, changelog_parser.py, cli.py,
changelog_state_manager.py, util/id_generator.py) and proves properties of
the embedded definitions.  Machine integers are modelled as Int/Nat, Python
dicts keyed by identities as functions over an explicit key list, and the
two unbounded loops (Kahn's algorithm and the recursive file traversal) are
written with an explicit fuel argument; a sufficiency lemma shows the fuel
chosen by the top-level definitions never runs out.
-/

namespace LiquibaseClickhouse

/-- Identity of a change: the pair (changelog_path, change_id), in the
column order used by the applied-set query in changelog_parser.py. -/
abbrev Ident := String × String

/-- Embeds dataclass ChangeLogDependency of changelog.py. -/
structure ChangeLogDependency where
  changelog_path : String
  change_id : String
deriving DecidableEq, Repr

/-- Embeds class ChangeLog of changelog.py (the fields used by the
resolver and orchestrator). -/
structure ChangeLog where
  id : String
  type_ : String
  description : String
  file_path : String
  depends_on : List ChangeLogDependency
  changelog_file : String
  index : Nat
deriving DecidableEq, Repr

/-- Identity (changelog_file, id) of a change, as built by the
change_lookup comprehension in get_unapplied_changes. -/
def changeIdent (c : ChangeLog) : Ident := (c.changelog_file, c.id)

/-- Identity named by a dependency reference, as read in
get_unapplied_changes (dependency.changelog_path, dependency.change_id). -/
def depIdent (d : ChangeLogDependency) : Ident := (d.changelog_path, d.change_id)

/-- All identities defined in the loaded graph: the key set of
change_lookup in get_unapplied_changes. -/
def definedIdents (all : List ChangeLog) : List Ident := all.map changeIdent

/-- Lookup of a change by identity.  Python dict comprehensions let a later
entry overwrite an earlier one, so the last change with the identity wins. -/
def changeLookup (all : List ChangeLog) (k : Ident) : Option ChangeLog :=
  (all.filter (fun c => changeIdent c = k)).getLast?

/-- The pending list: defined changes whose identity is not in the applied
set (the first filtering loop of get_unapplied_changes). -/
def pendingOf (all : List ChangeLog) (applied : List Ident) : List ChangeLog :=
  all.filter (fun c => changeIdent c ∉ applied)

/-- Insertion-ordered key set: appends each key that is not already
present, keeping the first occurrence's position.  Models the insertion
order of the Python in_degrees dict. -/
def insertKeys : List Ident → List Ident → List Ident
  | [], acc => acc
  | k :: rest, acc => insertKeys rest (if k ∈ acc then acc else acc ++ [k])

/-- Key list of the in_degrees dict after the initialization loop of
get_unapplied_changes: distinct pending identities in first-occurrence
order. -/
def nodesOf (all : List ChangeLog) (applied : List Ident) : List Ident :=
  insertKeys ((pendingOf all applied).map changeIdent) []

/-- The active-edge test of get_unapplied_changes: an edge dep → node is
added only if dep is defined in some changelog and dep has not been
applied. -/
def activeDep (all : List ChangeLog) (applied : List Ident) (d : ChangeLogDependency) : Prop :=
  depIdent d ∈ definedIdents all ∧ depIdent d ∉ applied

instance (all : List ChangeLog) (applied : List Ident) (d : ChangeLogDependency) :
    Decidable (activeDep all applied d) := by unfold activeDep; infer_instance

/-- The inner dependency loop of get_unapplied_changes for one pending
change. -/
def addEdgesOfChange (all : List ChangeLog) (applied : List Ident) (node : Ident) :
    List ChangeLogDependency → (Ident → List Ident) → (Ident → Int) →
    (Ident → List Ident) × (Ident → Int)
  | [], g, i => (g, i)
  | d :: rest, g, i =>
      if activeDep all applied d then
        addEdgesOfChange all applied node rest
          (Function.update g (depIdent d) (g (depIdent d) ++ [node]))
          (Function.update i node (i node + 1))
      else
        addEdgesOfChange all applied node rest g i

/-- The outer edge-building loop of get_unapplied_changes over the pending
changes. -/
def buildGraph (all : List ChangeLog) (applied : List Ident) :
    List ChangeLog → (Ident → List Ident) → (Ident → Int) →
    (Ident → List Ident) × (Ident → Int)
  | [], g, i => (g, i)
  | c :: rest, g, i =>
      let gi := addEdgesOfChange all applied (changeIdent c) c.depends_on g i
      buildGraph all applied rest gi.1 gi.2

/-- The adjacency function of the dependency graph built by
get_unapplied_changes (graph: dependency -> dependents). -/
def graphOf (all : List ChangeLog) (applied : List Ident) : Ident → List Ident :=
  (buildGraph all applied (pendingOf all applied) (fun _ => []) (fun _ => 0)).1

/-- The in_degrees map built by get_unapplied_changes (every pending node
initialized to 0, then incremented per active edge). -/
def indeg0Of (all : List ChangeLog) (applied : List Ident) : Ident → Int :=
  (buildGraph all applied (pendingOf all applied) (fun _ => []) (fun _ => 0)).2

/-- The neighbor-processing body of the Kahn loop: for each dependent of
the dequeued node, decrement its in-degree and enqueue it when the
in-degree reaches exactly zero. -/
def processNeighbors : List Ident → List Ident → (Ident → Int) →
    List Ident × (Ident → Int)
  | [], queue, i => (queue, i)
  | n :: rest, queue, i =>
      let d : Int := i n - 1
      processNeighbors rest (if d = 0 then queue ++ [n] else queue)
        (Function.update i n d)

/-- The while loop of Kahn's algorithm in get_unapplied_changes, with an
explicit fuel bound.  Returns (sorted nodes, remaining queue, final
in-degrees); the remaining queue is empty whenever the fuel sufficed. -/
def kahnRun (g : Ident → List Ident) :
    Nat → List Ident → (Ident → Int) → List Ident →
    List Ident × List Ident × (Ident → Int)
  | 0, queue, i, sorted => (sorted, queue, i)
  | _ + 1, [], i, sorted => (sorted, [], i)
  | fuel + 1, current :: rest, i, sorted =>
      let qi := processNeighbors (g current) rest i
      kahnRun g fuel qi.1 qi.2 (sorted ++ [current])

/-- Fuel that suffices for the Kahn loop: initial queue length plus the sum
of the nonnegative in-degrees. -/
def kahnFuel (nodes : List Ident) (queue : List Ident) (i : Ident → Int) : Nat :=
  queue.length + (nodes.map (fun x => (i x).toNat)).sum

/-- The initial queue of the Kahn loop: nodes of in-degree zero, in the
insertion order of the in_degrees dict. -/
def queue0Of (all : List ChangeLog) (applied : List Ident) : List Ident :=
  (nodesOf all applied).filter (fun n => indeg0Of all applied n = 0)

/-- The full Kahn run performed by get_unapplied_changes. -/
def kahnResultOf (all : List ChangeLog) (applied : List Ident) :
    List Ident × List Ident × (Ident → Int) :=
  kahnRun (graphOf all applied)
    (kahnFuel (nodesOf all applied) (queue0Of all applied) (indeg0Of all applied))
    (queue0Of all applied) (indeg0Of all applied) []

/-- The sorted node list produced by the Kahn loop. -/
def sortedOf (all : List ChangeLog) (applied : List Ident) : List Ident :=
  (kahnResultOf all applied).1

/-- The in-degree map after the Kahn loop finishes. -/
def indegFOf (all : List ChangeLog) (applied : List Ident) : Ident → Int :=
  (kahnResultOf all applied).2.2

/-- Errors raised by get_unapplied_changes: the circular-dependency
ValueError carrying the identities it names, and the unreachable
"unexpected state" ValueError. -/
inductive ResolveError where
  | cyclic (idents : List Ident)
  | unexpected
deriving DecidableEq, Repr

/-- Embeds ChangelogParser.get_unapplied_changes of changelog_parser.py,
from the point where the defined-change list and the applied-identity set
are in hand: filter the pending set, build the active-edge graph, run
Kahn's algorithm, detect cycles, and map the sorted identities back to
changes. -/
def get_unapplied_changes (all : List ChangeLog) (applied : List Ident) :
    Except ResolveError (List ChangeLog) :=
  let pending := pendingOf all applied
  if pending = [] then .ok []
  else
    let nodes := nodesOf all applied
    let sorted := sortedOf all applied
    if sorted.length ≠ nodes.length then
      let cyclic := nodes.filter (fun n => 0 < indegFOf all applied n)
      if cyclic ≠ [] then .error (.cyclic cyclic)
      else .error .unexpected
    else
      .ok (sorted.filterMap (changeLookup all))

/-- An active edge d → c of the resolver's graph, stated from the spec's
side: some pending change with identity c declares a dependency on d, and
d is both defined in the loaded graph and not applied. -/
def ActiveEdge (all : List ChangeLog) (applied : List Ident) (d c : Ident) : Prop :=
  ∃ ch ∈ pendingOf all applied, changeIdent ch = c ∧
    ∃ dep ∈ ch.depends_on, depIdent dep = d ∧ activeDep all applied dep

/-- d occurs strictly before c in the list l. -/
def Before (l : List Ident) (d c : Ident) : Prop :=
  ∃ i j : Nat, i < j ∧ l[i]? = some d ∧ l[j]? = some c

/-- The prefix of the dependents of a dequeued node that get enqueued by
processNeighbors: exactly those whose in-degree reaches zero.  This is a
specification device; processNeighbors is proved to append it. -/
def newlyOf : List Ident → (Ident → Int) → List Ident
  | [], _ => []
  | n :: rest, i =>
      (if i n - 1 = 0 then [n] else []) ++
        newlyOf rest (Function.update i n (i n - 1))

/-- Decidable equality for Except values, used to state concrete runs. -/
instance {ε α : Type} [DecidableEq ε] [DecidableEq α] : DecidableEq (Except ε α) := fun x y =>
  match x, y with
  | .ok a, .ok b => if h : a = b then .isTrue (by rw [h]) else .isFalse (by simp [h])
  | .error e, .error f => if h : e = f then .isTrue (by rw [h]) else .isFalse (by simp [h])
  | .ok _, .error _ => .isFalse (by simp)
  | .error _, .ok _ => .isFalse (by simp)

/-- Number of active edges from the sources listed in l into x: the sum
over l of the multiplicity of x in each adjacency list. -/
def cnt (g : Ident → List Ident) (x : Ident) (l : List Ident) : Nat :=
  (l.map (fun d => (g d).count x)).sum

/-! ### Graph loader (changelog_parser.py, file traversal)

The loader walks YAML changelog files.  Paths are plain strings; the
following functions model the os.path helpers (basename, split on the
first dot, dirname, join, relpath) for the relative POSIX layouts the
loader builds: paths assembled by join from the project root, without
dot-dot segments or drive letters. -/

/-- Splits a character list at every occurrence of the separator, the
behavior of str.split with a single-character separator. -/
def splitOnChar (c : Char) : List Char → List (List Char)
  | [] => [[]]
  | a :: rest =>
      match splitOnChar c rest with
      | [] => [[]]
      | h :: t => if a = c then [] :: h :: t else (a :: h) :: t

/-- Model of os.path.basename for forward-slash paths: the part after the
last slash. -/
def pyBasename (s : String) : String :=
  String.mk ((splitOnChar '/' s.toList).getLastD [])

/-- Model of str.split applied as in the parser: the part of the name
before the first dot (os.path.basename(file_ref).split of the dot, first
component). -/
def pyStem (s : String) : String :=
  String.mk ((splitOnChar '.' s.toList).headD [])

/-- Model of os.path.dirname for forward-slash paths: everything before
the last slash, empty when there is no slash. -/
def pyDirname (s : String) : String :=
  String.mk (List.intercalate ['/'] ((splitOnChar '/' s.toList).dropLast))

/-- Model of os.path.join for a relative second component. -/
def pyJoin (a b : String) : String :=
  if a = "" then b else a ++ "/" ++ b

/-- Model of os.path.relpath for a path lying under the root: strips the
root prefix.  Paths outside the root (which would need dot-dot segments)
are returned unchanged; the loader only forms paths under the root. -/
def pyRelpath (p root : String) : String :=
  if root = "" then p
  else if (root.toList ++ ['/']).isPrefixOf p.toList then
    String.mk (p.toList.drop (root.toList.length + 1))
  else p

/-- Python truthiness of an optional string: None and the empty string are
falsy.  Used for the id / file / dependency-field checks of the parser. -/
def falsy : Option String → Bool
  | none => true
  | some s => s = ""

/-- One raw dependency dict of a changelog entry, before validation;
either key may be missing. -/
structure RawDep where
  changelog_path : Option String
  change_id : Option String
deriving DecidableEq, Repr

/-- One raw entry of the changes list of a changelog file, as read by
entry.get in _parse_file_recursively.  The description defaults to the
empty string; a depends_on value that is not a list is outside this
model. -/
structure RawEntry where
  type_ : Option String
  id : Option String
  description : String
  file : Option String
  depends_on : List RawDep
deriving DecidableEq, Repr

/-- Parsed content of one YAML file as _load_yaml returns it: notDict
models any non-mapping document (empty file, scalar, list), which
_load_yaml replaces with an empty dict; dict carries the changes list
(data.get of changes, defaulting to the empty list). -/
inductive YamlDoc where
  | notDict
  | dict (changes : List RawEntry)
deriving Repr

/-- The changes list the traversal iterates for a document. -/
def YamlDoc.changesList : YamlDoc → List RawEntry
  | .notDict => []
  | .dict cs => cs

/-- A file system: the set of existing files and each YAML file's parsed
content. -/
structure FS where
  files : List String
  content : String → YamlDoc

/-- Errors raised by the loader: FileNotFoundError and ValueError variants
of changelog_parser.py, plus fuel exhaustion of the embedded traversal
(never reached when the fuel dominates the include depth). -/
inductive ParseErr where
  | masterNotFound (path : String)
  | sqlMissingFile (filepath : String)
  | sqlFileNotFound (filepath path : String)
  | yamlMissingFile (filepath : String)
  | yamlFileNotFound (filepath path : String)
  | badDependency (filepath : String)
  | unknownType (t : Option String) (filepath : String)
  | outOfFuel
deriving DecidableEq, Repr

/-- The dependency-parsing loop of _parse_file_recursively: each entry
must supply a truthy changelog_path and change_id, otherwise ValueError. -/
def parseDeps (filepath : String) : List RawDep → Except ParseErr (List ChangeLogDependency)
  | [] => .ok []
  | d :: rest =>
      if falsy d.changelog_path || falsy d.change_id then
        .error (.badDependency filepath)
      else do
        let tail ← parseDeps filepath rest
        .ok (⟨d.changelog_path.getD "", d.change_id.getD ""⟩ :: tail)

/-- Default change id derivation of the sql branch: script base name up to
the first dot, an underscore, and the position index. -/
def derivedId (file_ref : String) (idx : Nat) : String :=
  pyStem (pyBasename file_ref) ++ "_" ++ toString idx

/-- The id chosen for a sql entry: the explicit id when truthy, else the
derived default. -/
def entryChangeId (e : RawEntry) (idx : Nat) (file_ref : String) : String :=
  if falsy e.id then derivedId file_ref idx else e.id.getD ""

/-- The entry loop of _parse_file_recursively over one file's changes
list, with the enumerate index threaded through.  Recursion into included
files goes through recFile, which the caller instantiates with the
traversal at one less fuel. -/
def parseEntries (fs : FS)
    (recFile : String → List ChangeLog → List String →
      Except ParseErr (List ChangeLog × List String))
    (filepath rel : String) :
    Nat → List RawEntry → List ChangeLog → List String →
    Except ParseErr (List ChangeLog × List String)
  | _, [], acc, processed => .ok (acc, processed)
  | idx, e :: rest, acc, processed =>
      match parseDeps filepath e.depends_on with
      | .error er => .error er
      | .ok deps =>
          if e.type_ = some "sql" then
            if falsy e.file then .error (.sqlMissingFile filepath)
            else
              let f := e.file.getD ""
              let full := pyJoin (pyDirname filepath) f
              if full ∈ fs.files then
                parseEntries fs recFile filepath rel (idx + 1) rest
                  (acc ++ [⟨entryChangeId e idx f, "sql", e.description, full, deps, rel, idx⟩])
                  processed
              else .error (.sqlFileNotFound filepath full)
          else if e.type_ = some "yaml" then
            if falsy e.file then .error (.yamlMissingFile filepath)
            else
              let f := e.file.getD ""
              let full := pyJoin (pyDirname filepath) f
              if full ∈ fs.files then
                match recFile full acc processed with
                | .error er => .error er
                | .ok ap => parseEntries fs recFile filepath rel (idx + 1) rest ap.1 ap.2
              else .error (.yamlFileNotFound filepath full)
          else .error (.unknownType e.type_ filepath)

/-- Embeds _parse_file_recursively of changelog_parser.py: skip files whose
relative path was already processed, record the path, then walk the
changes list.  Fuel bounds the include-recursion depth. -/
def parseFileRec (fs : FS) (root : String) :
    Nat → String → List ChangeLog → List String →
    Except ParseErr (List ChangeLog × List String)
  | 0, _, _, _ => .error .outOfFuel
  | fuel + 1, filepath, acc, processed =>
      let rel := pyRelpath filepath root
      if rel ∈ processed then .ok (acc, processed)
      else
        parseEntries fs (parseFileRec fs root fuel) filepath rel 0
          (fs.content filepath).changesList acc (processed ++ [rel])

/-- Embeds ChangelogParser.get_all_changes (with the constructor's
master-file existence check): walk from the master changelog and return
every change found. -/
def get_all_changes (fs : FS) (master : String) (fuel : Nat) :
    Except ParseErr (List ChangeLog) :=
  if master ∈ fs.files then
    (parseFileRec fs (pyDirname master) fuel master [] []).map (fun p => p.1)
  else .error (.masterNotFound master)

/-! ### Execution orchestrator (cli.py update loop) -/

/-- The collaborators the update loop calls for one change: the Jinja
renderer and the ClickHouse executor, each of which may raise (modelled as
an error message). -/
structure RunEnv where
  render : ChangeLog → Except String String
  execute : String → Except String Unit

/-- Rendering followed by execution for one change, the fallible part of
the loop body of cli.update. -/
def attemptChange (env : RunEnv) (c : ChangeLog) : Except String Unit := do
  let sql ← env.render c
  env.execute sql

/-- One write against the changelog state table, as issued by the update
loop: manager.log_start and manager.update_status. -/
inductive HistOp where
  | insertPending (change_id : String) (changelog_path : String)
  | setStatus (change_id : String) (changelog_path : String)
      (status : String) (errorMessage : String)
deriving DecidableEq, Repr

/-- Embeds the per-change loop of cli.update: skip non-sql entries, insert
a pending record, render and execute, mark success, or on the first
failure mark failed and exit with code 1.  Returns the history writes in
order and the process exit code; state-table writes themselves are assumed
to succeed. -/
def applyChanges (env : RunEnv) : List ChangeLog → List HistOp × Nat
  | [] => ([], 0)
  | c :: rest =>
      if c.type_ ≠ "sql" then applyChanges env rest
      else
        match attemptChange env c with
        | .ok _ =>
            let r := applyChanges env rest
            (.insertPending c.id c.changelog_file ::
              .setStatus c.id c.changelog_file "success" "" :: r.1, r.2)
        | .error e =>
            ([.insertPending c.id c.changelog_file,
              .setStatus c.id c.changelog_file "failed" e], 1)

/-! ### Changelog state table (changelog_state_manager.py) -/

/-- One row of the changelog_state table (the columns the status
transition reads or writes). -/
structure StateRow where
  rid : Int
  change_id : String
  changelog_path : String
  status : String
  error_message : String
deriving DecidableEq, Repr

/-- Embeds ChangelogStateManager.log_start: insert one new row with status
pending. -/
def log_start (table : List StateRow) (rid : Int) (c : ChangeLog)
    (changelog_path : String) : List StateRow :=
  table ++ [⟨rid, c.id, changelog_path, "pending", ""⟩]

/-- Embeds ChangelogStateManager.update_status: the ALTER TABLE UPDATE
statement mutates status and error_message of every row whose
(change_id, changelog_path) matches; a missing error message becomes the
empty string. -/
def update_status (table : List StateRow) (change_id changelog_path status : String)
    (error_message : Option String) : List StateRow :=
  table.map (fun r =>
    if r.change_id = change_id ∧ r.changelog_path = changelog_path then
      { r with status := status, error_message := error_message.getD "" }
    else r)

/-! ### Applied-set query (changelog_parser.py) and id generator -/

/-- Embeds _get_applied_changes_from_state_manager: without a state
manager the applied set is empty; a successful query yields the selected
identities; a failing query is swallowed, yields the empty set and logs a
warning (returned here as a flag). -/
def get_applied_changes_from_state_manager (hasManager : Bool)
    (queryResult : Except String (List Ident)) : List Ident × Bool :=
  if hasManager then
    match queryResult with
    | .ok rows => (rows, false)
    | .error _ => ([], true)
  else ([], false)

/-- The module-level state of util/id_generator.py: the last observed
millisecond timestamp and the intra-millisecond counter. -/
structure GenState where
  last_timestamp_ms : Int
  counter : Int
deriving DecidableEq, Repr

/-- The initial generator state of util/id_generator.py. -/
def genInit : GenState := ⟨-1, 0⟩

/-- Embeds generate_unique_id_int for one call observing the clock reading
now_ms: same millisecond increments the counter, a new millisecond resets
it; the id is the millisecond times 1000 plus the counter. -/
def generate_unique_id_int (now_ms : Int) (s : GenState) : Int × GenState :=
  if now_ms = s.last_timestamp_ms then
    (now_ms * 1000 + (s.counter + 1), ⟨s.last_timestamp_ms, s.counter + 1⟩)
  else
    (now_ms * 1000 + 0, ⟨now_ms, 0⟩)

/-- Runs the generator over a sequence of clock readings, returning the
ids in call order. -/
def genRun : List Int → GenState → List Int
  | [], _ => []
  | t :: rest, s =>
      (generate_unique_id_int t s).1 :: genRun rest (generate_unique_id_int t s).2

/-- The generator state after a sequence of calls. -/
def genStateAfter : List Int → GenState → GenState
  | [], s => s
  | t :: rest, s => genStateAfter rest (generate_unique_id_int t s).2

/-- Invariant of the Kahn loop of get_unapplied_changes, relating the
current queue, the sorted output so far and the current in-degree map to
the graph, the initial in-degrees and the node universe. -/
structure KahnInv (g : Ident → List Ident) (indeg0 : Ident → Int)
    (nodes queue sorted : List Ident) (i : Ident → Int) : Prop where
  nodup : (sorted ++ queue).Nodup
  mem_nodes : ∀ x ∈ sorted ++ queue, x ∈ nodes
  nonpos : ∀ x ∈ sorted ++ queue, i x ≤ 0
  count_eq : ∀ x, i x = indeg0 x - (cnt g x sorted : Int)
  ready : ∀ c ∈ queue, ∀ d, c ∈ g d → d ∈ sorted
  topo : ∀ d c, c ∈ g d → c ∈ sorted → Before sorted d c
  zero_mem : ∀ x ∈ nodes, i x = 0 → x ∈ sorted ++ queue

/-- The history writes a fully successful run emits for a list of
changes: one pending insert and one success transition per sql change,
non-sql entries skipped. -/
def successOps : List ChangeLog → List HistOp
  | [] => []
  | p :: rest =>
      if p.type_ = "sql" then
        .insertPending p.id p.changelog_file ::
          .setStatus p.id p.changelog_file "success" "" :: successOps rest
      else successOps rest

/-- The identity a history write refers to, in (changelog_path, change_id)
order. -/
def histIdent : HistOp → Ident
  | .insertPending cid path => (path, cid)
  | .setStatus cid path _ _ => (path, cid)

/-! ### Concrete sample data used by witnesses -/

/-- Sample change A with no dependencies. -/
def exA : ChangeLog := ⟨"A", "sql", "", "root/a.sql", [], "master.yaml", 0⟩

/-- Sample change B depending on A. -/
def exB : ChangeLog :=
  ⟨"B", "sql", "", "root/b.sql", [⟨"master.yaml", "A"⟩], "master.yaml", 1⟩

/-- Sample change C depending on B. -/
def exC : ChangeLog :=
  ⟨"C", "sql", "", "root/c.sql", [⟨"master.yaml", "B"⟩], "master.yaml", 2⟩

/-- A three-change graph listed against dependency order. -/
def exChain : List ChangeLog := [exC, exB, exA]

/-- The resolved order of exChain. -/
def exChainRes : List ChangeLog := [exA, exB, exC]

/-- Sample change X depending on Y, half of a two-cycle. -/
def exX : ChangeLog :=
  ⟨"X", "sql", "", "root/x.sql", [⟨"master.yaml", "Y"⟩], "master.yaml", 0⟩

/-- Sample change Y depending on X, the other half of the two-cycle. -/
def exY : ChangeLog :=
  ⟨"Y", "sql", "", "root/y.sql", [⟨"master.yaml", "X"⟩], "master.yaml", 1⟩

/-- A pending set whose active-edge graph is a two-cycle. -/
def exCycle : List ChangeLog := [exX, exY]

/-- Sample change already recorded as applied. -/
def exDone : ChangeLog := ⟨"done", "sql", "", "root/d.sql", [], "master.yaml", 0⟩

/-- Sample change whose dependencies are one dangling reference and one
already-applied reference. -/
def exP : ChangeLog :=
  ⟨"P", "sql", "", "root/p.sql",
    [⟨"nowhere.yaml", "ghost"⟩, ⟨"master.yaml", "done"⟩], "master.yaml", 1⟩

/-- A graph with an applied change and a pending change whose references
are all satisfied without edges. -/
def exMixed : List ChangeLog := [exDone, exP]

/-- The applied-identity set marking exDone as applied. -/
def exMixedApplied : List Ident := [("master.yaml", "done")]

/-- A raw sql entry with an explicit id, referencing the script a.sql. -/
def dupEntry (idStr : String) : RawEntry :=
  ⟨some "sql", some idStr, "", some "a.sql", []⟩

/-- A file system whose master changelog declares the same explicit id
twice. -/
def dupFS (idStr : String) : FS :=
  { files := ["root/master.yaml", "root/a.sql"]
    content := fun p =>
      if p = "root/master.yaml" then .dict [dupEntry idStr, dupEntry idStr]
      else .notDict }

/-- The two changes a load of dupFS produces, sharing one identity. -/
def dupChanges (idStr : String) : List ChangeLog :=
  [⟨idStr, "sql", "", "root/a.sql", [], "master.yaml", 0⟩,
   ⟨idStr, "sql", "", "root/a.sql", [], "master.yaml", 1⟩]

/-- A file system whose master changelog has one sql entry referencing
001_init.sql with no explicit id. -/
def initFS : FS :=
  { files := ["root/master.yaml", "root/001_init.sql"]
    content := fun p =>
      if p = "root/master.yaml" then
        .dict [⟨some "sql", none, "", some "001_init.sql", []⟩]
      else .notDict }

/-- A file system whose master changelog parses to a non-mapping
document. -/
def scalarFS : FS :=
  { files := ["root/master.yaml"], content := fun _ => .notDict }

/-- Collaborators for the witness run: rendering succeeds everywhere,
execution fails exactly on the text rendered for change B. -/
def exEnv : RunEnv :=
  { render := fun c => if c.id = "B" then .ok "BAD" else .ok "GOOD"
    execute := fun sql => if sql = "BAD" then .error "boom" else .ok () }

/-! ## Lemmas: graph construction -/

theorem mem_insertKeys : ∀ (l acc : List Ident) (x : Ident),
    x ∈ insertKeys l acc ↔ x ∈ acc ∨ x ∈ l := by
  intro l
  induction l with
  | nil => intro acc x; simp [insertKeys]
  | cons k rest ih =>
    intro acc x
    simp only [insertKeys]
    by_cases hk : k ∈ acc
    · simp only [hk, if_pos, ih]
      constructor
      · rintro (h | h)
        · exact Or.inl h
        · exact Or.inr (List.mem_cons_of_mem _ h)
      · rintro (h | h)
        · exact Or.inl h
        · rcases List.mem_cons.mp h with rfl | h
          · exact Or.inl hk
          · exact Or.inr h
    · simp only [hk, if_neg, not_false_iff, ih, List.mem_append, List.mem_singleton,
        List.mem_cons]
      tauto

theorem nodup_insertKeys : ∀ (l acc : List Ident), acc.Nodup → (insertKeys l acc).Nodup := by
  intro l
  induction l with
  | nil => intro acc h; simpa [insertKeys] using h
  | cons k rest ih =>
    intro acc h
    simp only [insertKeys]
    by_cases hk : k ∈ acc
    · simpa [hk] using ih acc h
    · refine ih _ ?_
      simp only [hk, if_neg, not_false_iff]
      exact List.Nodup.append h (List.nodup_singleton k)
        (by intro a ha hb; simp only [List.mem_singleton] at hb; exact hk (hb ▸ ha))

theorem cnt_nil (g : Ident → List Ident) (x : Ident) : cnt g x [] = 0 := rfl

theorem cnt_append (g : Ident → List Ident) (x : Ident) (l₁ l₂ : List Ident) :
    cnt g x (l₁ ++ l₂) = cnt g x l₁ + cnt g x l₂ := by
  simp [cnt]

theorem cnt_singleton (g : Ident → List Ident) (x d : Ident) :
    cnt g x [d] = (g d).count x := by
  simp [cnt]

theorem count_le_cnt (g : Ident → List Ident) (x d : Ident) (l : List Ident)
    (hd : d ∈ l) : (g d).count x ≤ cnt g x l :=
  List.le_sum_of_mem (List.mem_map_of_mem _ hd)

theorem cnt_le_of_nodup_subset (g : Ident → List Ident) (x : Ident)
    (l₁ l₂ : List Ident) (h₁ : l₁.Nodup) (hsub : l₁ ⊆ l₂) :
    cnt g x l₁ ≤ cnt g x l₂ := by
  obtain ⟨l', hperm, hsl⟩ := h₁.subperm hsub
  calc cnt g x l₁ = cnt g x l' := ((hperm.map _).sum_eq).symm
    _ ≤ cnt g x l₂ := List.Sublist.sum_le_sum (hsl.map _) (fun a _ => Nat.zero_le a)

theorem sum_map_update_nat (F : Ident → Nat) (a : Ident) (v : Nat) :
    ∀ l : List Ident, l.Nodup → a ∈ l →
      (l.map (Function.update F a v)).sum + F a = (l.map F).sum + v := by
  intro l
  induction l with
  | nil => intro _ h; simp at h
  | cons b t ih =>
    intro hnd hmem
    rcases List.mem_cons.mp hmem with rfl | hat
    · have hnot : a ∉ t := (List.nodup_cons.mp hnd).1
      have : t.map (Function.update F a v) = t.map F := by
        refine List.map_congr_left (fun x hx => ?_)
        have hxa : x ≠ a := by rintro rfl; exact hnot hx
        exact Function.update_noteq hxa v F
      simp only [List.map_cons, List.sum_cons, this, Function.update_same]
      omega
    · have hba : b ≠ a := by
        rintro rfl
        exact (List.nodup_cons.mp hnd).1 hat
      have ht := ih (List.nodup_cons.mp hnd).2 hat
      simp only [List.map_cons, List.sum_cons, Function.update_noteq hba]
      omega

theorem cnt_update_append (g : Ident → List Ident) (nodes : List Ident)
    (dep node x : Ident) (hnd : nodes.Nodup) (hdep : dep ∈ nodes) :
    cnt (Function.update g dep (g dep ++ [node])) x nodes
      = cnt g x nodes + ([node].count x) := by
  have hmap : nodes.map (fun d => ((Function.update g dep (g dep ++ [node])) d).count x)
      = nodes.map (Function.update (fun d => (g d).count x) dep
          ((g dep).count x + ([node].count x))) := by
    refine List.map_congr_left (fun d _ => ?_)
    by_cases hd : d = dep
    · subst hd
      simp [Function.update_same, List.count_append]
    · simp [Function.update_noteq hd]
  have h2 : (nodes.map (Function.update (fun d => (g d).count x) dep
        ((g dep).count x + ([node].count x)))).sum + (g dep).count x
      = (nodes.map (fun d => (g d).count x)).sum
        + ((g dep).count x + ([node].count x)) :=
    sum_map_update_nat (fun d => (g d).count x) dep
      ((g dep).count x + ([node].count x)) nodes hnd hdep
  simp only [cnt, hmap]
  omega

/-- The identity universe carried by change_lookup contains every
dependency that passes the active-edge test. -/
theorem activeDep_mem_nodes (all : List ChangeLog) (applied : List Ident)
    (d : ChangeLogDependency) (h : activeDep all applied d) :
    depIdent d ∈ nodesOf all applied := by
  obtain ⟨hdef, happ⟩ := h
  rw [definedIdents, List.mem_map] at hdef
  obtain ⟨ch, hch, hident⟩ := hdef
  have hpend : ch ∈ pendingOf all applied := by
    rw [pendingOf, List.mem_filter]
    refine ⟨hch, ?_⟩
    simp only [decide_eq_true_eq]
    rw [hident]; exact happ
  rw [nodesOf, mem_insertKeys]
  exact Or.inr (List.mem_map.mpr ⟨ch, hpend, hident⟩)

theorem mem_nodesOf_iff (all : List ChangeLog) (applied : List Ident) (x : Ident) :
    x ∈ nodesOf all applied ↔ x ∈ (pendingOf all applied).map changeIdent := by
  rw [nodesOf, mem_insertKeys]
  simp

theorem nodup_nodesOf (all : List ChangeLog) (applied : List Ident) :
    (nodesOf all applied).Nodup :=
  nodup_insertKeys _ [] List.nodup_nil

/-- The three structural facts maintained while the edge-building loops
run: sources outside the node universe stay empty, targets stay inside the
node universe, and the in-degree of each node equals the number of edges
into it. -/
def BuildOk (nodes : List Ident) (g : Ident → List Ident) (i : Ident → Int) : Prop :=
  (∀ d, d ∉ nodes → g d = []) ∧ (∀ d x, x ∈ g d → x ∈ nodes) ∧
    (∀ x, i x = (cnt g x nodes : Int))

theorem buildOk_addEdge (nodes : List Ident) (hnd : nodes.Nodup)
    (g : Ident → List Ident) (i : Ident → Int) (dep node : Ident)
    (hdep : dep ∈ nodes) (hnode : node ∈ nodes) (h : BuildOk nodes g i) :
    BuildOk nodes (Function.update g dep (g dep ++ [node]))
      (Function.update i node (i node + 1)) := by
  obtain ⟨hsrc, htgt, hcnt⟩ := h
  refine ⟨?_, ?_, ?_⟩
  · intro d hd
    have : d ≠ dep := by rintro rfl; exact hd hdep
    rw [Function.update_noteq this]
    exact hsrc d hd
  · intro d x hx
    by_cases hd : d = dep
    · subst hd
      rw [Function.update_same] at hx
      rcases List.mem_append.mp hx with h | h
      · exact htgt _ _ h
      · simp only [List.mem_singleton] at h
        exact h ▸ hnode
    · rw [Function.update_noteq hd] at hx
      exact htgt _ _ hx
  · intro x
    rw [cnt_update_append g nodes dep node x hnd hdep]
    by_cases hx : x = node
    · subst hx
      rw [Function.update_same, hcnt]
      simp [List.count_singleton]
    · have hnx : node ≠ x := fun h => hx h.symm
      rw [Function.update_noteq hx, hcnt]
      simp [List.count_singleton, hnx]

theorem buildOk_addEdgesOfChange (all : List ChangeLog) (applied : List Ident)
    (node : Ident) (hnd : (nodesOf all applied).Nodup)
    (hnode : node ∈ nodesOf all applied) :
    ∀ (ds : List ChangeLogDependency) (g : Ident → List Ident) (i : Ident → Int),
      BuildOk (nodesOf all applied) g i →
      BuildOk (nodesOf all applied)
        (addEdgesOfChange all applied node ds g i).1
        (addEdgesOfChange all applied node ds g i).2 := by
  intro ds
  induction ds with
  | nil => intro g i h; exact h
  | cons d rest ih =>
    intro g i h
    simp only [addEdgesOfChange]
    by_cases hd : activeDep all applied d
    · rw [if_pos hd]
      exact ih _ _ (buildOk_addEdge _ hnd g i _ node
        (activeDep_mem_nodes all applied d hd) hnode h)
    · rw [if_neg hd]
      exact ih _ _ h

theorem buildOk_buildGraph (all : List ChangeLog) (applied : List Ident)
    (hnd : (nodesOf all applied).Nodup) :
    ∀ (cs : List ChangeLog) (g : Ident → List Ident) (i : Ident → Int),
      (∀ c ∈ cs, changeIdent c ∈ nodesOf all applied) →
      BuildOk (nodesOf all applied) g i →
      BuildOk (nodesOf all applied)
        (buildGraph all applied cs g i).1 (buildGraph all applied cs g i).2 := by
  intro cs
  induction cs with
  | nil => intro g i _ h; exact h
  | cons c rest ih =>
    intro g i hcs h
    simp only [buildGraph]
    exact ih _ _ (fun c' hc' => hcs c' (List.mem_cons_of_mem _ hc'))
      (buildOk_addEdgesOfChange all applied _ hnd (hcs c (List.mem_cons_self _ _))
        c.depends_on g i h)

theorem buildOk_graphOf (all : List ChangeLog) (applied : List Ident) :
    BuildOk (nodesOf all applied) (graphOf all applied) (indeg0Of all applied) := by
  have h := buildOk_buildGraph all applied (nodup_nodesOf all applied)
    (pendingOf all applied) (fun _ => []) (fun _ => 0)
    (fun c hc => (mem_nodesOf_iff all applied _).mpr (List.mem_map_of_mem _ hc))
    ⟨fun _ _ => rfl, fun d x hx => absurd hx (List.not_mem_nil x),
      fun x => by simp [cnt]⟩
  exact h

/-- Membership in the built adjacency lists: x is a dependent of d exactly
when some already-present edge or some processed dependency reference put
it there. -/
theorem mem_addEdgesOfChange (all : List ChangeLog) (applied : List Ident)
    (node : Ident) :
    ∀ (ds : List ChangeLogDependency) (g : Ident → List Ident) (i : Ident → Int)
      (d x : Ident),
      (x ∈ (addEdgesOfChange all applied node ds g i).1 d ↔
        x ∈ g d ∨ (x = node ∧ ∃ dd ∈ ds, depIdent dd = d ∧ activeDep all applied dd)) := by
  intro ds
  induction ds with
  | nil => intro g i d x; simp [addEdgesOfChange]
  | cons dd rest ih =>
    intro g i d x
    simp only [addEdgesOfChange]
    by_cases hd : activeDep all applied dd
    · rw [if_pos hd, ih]
      by_cases hdep : depIdent dd = d
      · subst hdep
        rw [Function.update_same]
        have hms : ∀ l : List Ident, x ∈ l ++ [node] ↔ x ∈ l ∨ x = node := by
          intro l
          simp [List.mem_append]
        rw [hms]
        constructor
        · rintro ((h | rfl) | ⟨rfl, dd', hdd', hdep', hact'⟩)
          · exact Or.inl h
          · exact Or.inr ⟨rfl, dd, List.mem_cons_self _ _, rfl, hd⟩
          · exact Or.inr ⟨rfl, dd', List.mem_cons_of_mem _ hdd', hdep', hact'⟩
        · rintro (h | ⟨rfl, dd', hdd', hdep', hact'⟩)
          · exact Or.inl (Or.inl h)
          · rcases List.mem_cons.mp hdd' with rfl | hdd'
            · exact Or.inl (Or.inr rfl)
            · exact Or.inr ⟨rfl, dd', hdd', hdep', hact'⟩
      · rw [Function.update_noteq (fun h => hdep h.symm)]
        constructor
        · rintro (h | ⟨rfl, dd', hdd', hdep', hact'⟩)
          · exact Or.inl h
          · exact Or.inr ⟨rfl, dd', List.mem_cons_of_mem _ hdd', hdep', hact'⟩
        · rintro (h | ⟨rfl, dd', hdd', hdep', hact'⟩)
          · exact Or.inl h
          · rcases List.mem_cons.mp hdd' with rfl | hdd'
            · exact absurd hdep' hdep
            · exact Or.inr ⟨rfl, dd', hdd', hdep', hact'⟩
    · rw [if_neg hd, ih]
      constructor
      · rintro (h | ⟨rfl, dd', hdd', hdep', hact'⟩)
        · exact Or.inl h
        · exact Or.inr ⟨rfl, dd', List.mem_cons_of_mem _ hdd', hdep', hact'⟩
      · rintro (h | ⟨rfl, dd', hdd', hdep', hact'⟩)
        · exact Or.inl h
        · rcases List.mem_cons.mp hdd' with rfl | hdd'
          · exact absurd hact' hd
          · exact Or.inr ⟨rfl, dd', hdd', hdep', hact'⟩

theorem mem_buildGraph (all : List ChangeLog) (applied : List Ident) :
    ∀ (cs : List ChangeLog) (g : Ident → List Ident) (i : Ident → Int) (d x : Ident),
      (x ∈ (buildGraph all applied cs g i).1 d ↔
        x ∈ g d ∨ ∃ ch ∈ cs, changeIdent ch = x ∧
          ∃ dd ∈ ch.depends_on, depIdent dd = d ∧ activeDep all applied dd) := by
  intro cs
  induction cs with
  | nil => intro g i d x; simp [buildGraph]
  | cons c rest ih =>
    intro g i d x
    simp only [buildGraph]
    rw [ih, mem_addEdgesOfChange]
    constructor
    · rintro ((h | ⟨rfl, dd, hdd, hdep, hact⟩) | ⟨ch, hch, hident, dd, hdd, hdep, hact⟩)
      · exact Or.inl h
      · exact Or.inr ⟨c, List.mem_cons_self _ _, rfl, dd, hdd, hdep, hact⟩
      · exact Or.inr ⟨ch, List.mem_cons_of_mem _ hch, hident, dd, hdd, hdep, hact⟩
    · rintro (h | ⟨ch, hch, hident, dd, hdd, hdep, hact⟩)
      · exact Or.inl (Or.inl h)
      · rcases List.mem_cons.mp hch with rfl | hch
        · exact Or.inl (Or.inr ⟨hident.symm, dd, hdd, hdep, hact⟩)
        · exact Or.inr ⟨ch, hch, hident, dd, hdd, hdep, hact⟩

/-- The edge characterization at the top level: the built graph has edge
d → c exactly when it is an active edge. -/
theorem mem_graphOf_iff (all : List ChangeLog) (applied : List Ident) (d c : Ident) :
    c ∈ graphOf all applied d ↔ ActiveEdge all applied d c := by
  rw [graphOf, mem_buildGraph]
  simp only [List.not_mem_nil, false_or, ActiveEdge]

/-! ## Lemmas: the Kahn loop -/

theorem processNeighbors_indeg (ns : List Ident) :
    ∀ (q : List Ident) (i : Ident → Int) (x : Ident),
      (processNeighbors ns q i).2 x = i x - (ns.count x : Int) := by
  induction ns with
  | nil => intro q i x; simp [processNeighbors]
  | cons n rest ih =>
    intro q i x
    simp only [processNeighbors]
    rw [ih]
    by_cases hx : x = n
    · subst hx
      rw [Function.update_same]
      simp only [List.count_cons, beq_self_eq_true, if_true]
      push_cast
      ring
    · rw [Function.update_noteq hx]
      have : (n == x) = false := by
        simp only [beq_eq_false_iff_ne, ne_eq]
        exact fun h => hx h.symm
      simp [List.count_cons, this]

theorem processNeighbors_queue (ns : List Ident) :
    ∀ (q : List Ident) (i : Ident → Int),
      (processNeighbors ns q i).1 = q ++ newlyOf ns i := by
  induction ns with
  | nil => intro q i; simp [processNeighbors, newlyOf]
  | cons n rest ih =>
    intro q i
    simp only [processNeighbors, newlyOf]
    by_cases hz : i n - 1 = 0
    · rw [if_pos hz, if_pos hz, ih]
      simp
    · rw [if_neg hz, if_neg hz, ih]
      simp

theorem mem_newlyOf (x : Ident) : ∀ (ns : List Ident) (i : Ident → Int),
    x ∈ newlyOf ns i ↔ 1 ≤ i x ∧ i x ≤ (ns.count x : Int) := by
  intro ns
  induction ns with
  | nil =>
    intro i
    simp only [newlyOf, List.not_mem_nil, List.count_nil, Nat.cast_zero, false_iff]
    omega
  | cons n rest ih =>
    intro i
    simp only [newlyOf, List.mem_append]
    rw [ih]
    by_cases hx : x = n
    · subst hx
      rw [Function.update_same]
      have hc : ((x :: rest).count x : Int) = (rest.count x : Int) + 1 := by
        simp [List.count_cons]
      rw [hc]
      by_cases hz : i x - 1 = 0
      · rw [if_pos hz]
        constructor
        · intro _; omega
        · intro _; exact Or.inl (List.mem_singleton_self x)
      · rw [if_neg hz]
        simp only [List.not_mem_nil, false_or]
        omega
    · rw [Function.update_noteq hx]
      have hc : ((n :: rest).count x : Int) = (rest.count x : Int) := by
        have : (n == x) = false := by
          simp only [beq_eq_false_iff_ne, ne_eq]
          exact fun h => hx h.symm
        simp [List.count_cons, this]
      rw [hc]
      by_cases hz : i n - 1 = 0
      · rw [if_pos hz]
        simp only [List.mem_singleton, hx, false_or]
      · rw [if_neg hz]
        simp

theorem nodup_newlyOf : ∀ (ns : List Ident) (i : Ident → Int), (newlyOf ns i).Nodup := by
  intro ns
  induction ns with
  | nil => intro i; simp [newlyOf]
  | cons n rest ih =>
    intro i
    simp only [newlyOf]
    by_cases hz : i n - 1 = 0
    · rw [if_pos hz]
      refine List.Nodup.append (List.nodup_singleton n) (ih _) ?_
      intro a ha hb
      simp only [List.mem_singleton] at ha
      subst ha
      rw [mem_newlyOf, Function.update_same] at hb
      omega
    · rw [if_neg hz]
      simpa using ih _

theorem newlyOf_subset (ns : List Ident) (i : Ident → Int) (x : Ident)
    (h : x ∈ newlyOf ns i) : x ∈ ns := by
  rw [mem_newlyOf] at h
  have : 0 < ns.count x := by omega
  exact List.count_pos_iff.mp this

theorem processNeighbors_measure (nodes : List Ident) (hnd : nodes.Nodup) :
    ∀ (ns q : List Ident) (i : Ident → Int), (∀ x ∈ ns, x ∈ nodes) →
      (processNeighbors ns q i).1.length
          + (nodes.map (fun x => ((processNeighbors ns q i).2 x).toNat)).sum
        ≤ q.length + (nodes.map (fun x => (i x).toNat)).sum := by
  intro ns
  induction ns with
  | nil => intro q i _; simp [processNeighbors]
  | cons n rest ih =>
    intro q i hns
    have hn : n ∈ nodes := hns n (List.mem_cons_self _ _)
    simp only [processNeighbors]
    have hmap : nodes.map (fun x => ((Function.update i n (i n - 1)) x).toNat)
        = nodes.map (Function.update (fun x => (i x).toNat) n ((i n - 1).toNat)) := by
      refine List.map_congr_left (fun x _ => ?_)
      by_cases hx : x = n
      · subst hx; rw [Function.update_same, Function.update_same]
      · rw [Function.update_noteq hx, Function.update_noteq hx]
    have hsum : (nodes.map (Function.update (fun x => (i x).toNat) n
          ((i n - 1).toNat))).sum + (i n).toNat
        = (nodes.map (fun x => (i x).toNat)).sum + (i n - 1).toNat :=
      sum_map_update_nat (fun x => (i x).toNat) n ((i n - 1).toNat) nodes hnd hn
    have hrec := ih (if i n - 1 = 0 then q ++ [n] else q)
      (Function.update i n (i n - 1)) (fun x hx => hns x (List.mem_cons_of_mem _ hx))
    rw [hmap] at hrec
    by_cases hz : i n - 1 = 0
    · rw [if_pos hz] at hrec ⊢
      simp only [List.length_append, List.length_singleton] at hrec
      omega
    · rw [if_neg hz] at hrec ⊢
      omega

theorem kahnRun_completes (g : Ident → List Ident) (nodes : List Ident)
    (hnd : nodes.Nodup) (htgt : ∀ d x, x ∈ g d → x ∈ nodes) :
    ∀ (fuel : Nat) (queue : List Ident) (i : Ident → Int) (sorted : List Ident),
      queue.length + (nodes.map (fun x => (i x).toNat)).sum ≤ fuel →
      (kahnRun g fuel queue i sorted).2.1 = [] := by
  intro fuel
  induction fuel with
  | zero =>
    intro queue i sorted h
    have : queue = [] := by
      have := Nat.le_zero.mp h
      cases queue with
      | nil => rfl
      | cons a t => simp [List.length_cons] at this
    subst this
    simp [kahnRun]
  | succ fuel ih =>
    intro queue i sorted h
    cases queue with
    | nil => simp [kahnRun]
    | cons current rest =>
      simp only [kahnRun]
      refine ih _ _ _ ?_
      have hm := processNeighbors_measure nodes hnd (g current) rest i
        (fun x hx => htgt current x hx)
      simp only [List.length_cons] at h
      omega

theorem kahnInv_step (g : Ident → List Ident) (indeg0 : Ident → Int)
    (nodes : List Ident)
    (hsrc : ∀ d, d ∉ nodes → g d = [])
    (htgt : ∀ d x, x ∈ g d → x ∈ nodes)
    (hnd : nodes.Nodup)
    (hindeg0 : ∀ x, indeg0 x = (cnt g x nodes : Int))
    (current : Ident) (rest sorted : List Ident) (i : Ident → Int)
    (inv : KahnInv g indeg0 nodes (current :: rest) sorted i) :
    KahnInv g indeg0 nodes (processNeighbors (g current) rest i).1
      (sorted ++ [current]) (processNeighbors (g current) rest i).2 := by
  have hq : (processNeighbors (g current) rest i).1 = rest ++ newlyOf (g current) i :=
    processNeighbors_queue _ _ _
  have hi : ∀ x, (processNeighbors (g current) rest i).2 x
      = i x - ((g current).count x : Int) :=
    fun x => processNeighbors_indeg (g current) rest i x
  have hre : sorted ++ current :: rest = (sorted ++ [current]) ++ rest := by simp
  have hnodup1 : ((sorted ++ [current]) ++ rest).Nodup := by
    rw [← hre]; exact inv.nodup
  have hfresh : ∀ x ∈ newlyOf (g current) i, x ∉ (sorted ++ [current]) ++ rest := by
    intro x hxn hxo
    have h1 := ((mem_newlyOf x (g current) i).mp hxn).1
    have h2 : i x ≤ 0 := inv.nonpos x (by rw [hre]; exact hxo)
    omega
  rw [hq]
  refine ⟨?_, ?_, ?_, ?_, ?_, ?_, ?_⟩
  · have h : ((sorted ++ [current]) ++ rest ++ newlyOf (g current) i).Nodup :=
      List.Nodup.append hnodup1 (nodup_newlyOf _ _) (fun a ha hb => hfresh a hb ha)
    simpa [List.append_assoc] using h
  · intro x hx
    have hsplit : x ∈ (sorted ++ [current]) ++ rest ∨ x ∈ newlyOf (g current) i := by
      rcases List.mem_append.mp hx with h | h
      · exact Or.inl (List.mem_append.mpr (Or.inl h))
      · rcases List.mem_append.mp h with h | h
        · exact Or.inl (List.mem_append.mpr (Or.inr h))
        · exact Or.inr h
    rcases hsplit with h | h
    · exact inv.mem_nodes x (by rw [hre]; exact h)
    · exact htgt current x (newlyOf_subset _ _ x h)
  · intro x hx
    rw [hi x]
    have hsplit : x ∈ (sorted ++ [current]) ++ rest ∨ x ∈ newlyOf (g current) i := by
      rcases List.mem_append.mp hx with h | h
      · exact Or.inl (List.mem_append.mpr (Or.inl h))
      · rcases List.mem_append.mp h with h | h
        · exact Or.inl (List.mem_append.mpr (Or.inr h))
        · exact Or.inr h
    rcases hsplit with h | h
    · have := inv.nonpos x (by rw [hre]; exact h)
      omega
    · have := ((mem_newlyOf x (g current) i).mp h).2
      omega
  · intro x
    rw [hi x, cnt_append, cnt_singleton]
    have := inv.count_eq x
    push_cast
    omega
  · intro c hc d hcd
    rcases List.mem_append.mp hc with hcr | hcn
    · exact List.mem_append.mpr
        (Or.inl (inv.ready c (List.mem_cons_of_mem _ hcr) d hcd))
    · by_contra hns
      have hcd1 : 0 < (g d).count c := List.count_pos_iff.mpr hcd
      have hdnodes : d ∈ nodes := by
        by_contra hdn
        rw [hsrc d hdn] at hcd
        exact absurd hcd (List.not_mem_nil c)
      have hsc : (sorted ++ [current]).Nodup := List.Nodup.of_append_left hnodup1
      have hnd2 : ((sorted ++ [current]) ++ [d]).Nodup :=
        List.Nodup.append hsc (List.nodup_singleton d)
          (fun a ha hb => by
            rw [List.mem_singleton] at hb
            subst hb
            exact hns ha)
      have hsub2 : ∀ x ∈ (sorted ++ [current]) ++ [d], x ∈ nodes := by
        intro x hx
        rcases List.mem_append.mp hx with h | h
        · refine inv.mem_nodes x ?_
          rw [hre]
          exact List.mem_append.mpr (Or.inl h)
        · rw [List.mem_singleton] at h
          exact h ▸ hdnodes
      have hle := cnt_le_of_nodup_subset g c ((sorted ++ [current]) ++ [d]) nodes hnd2 hsub2
      rw [cnt_append, cnt_append, cnt_singleton, cnt_singleton] at hle
      have hmn := (mem_newlyOf c (g current) i).mp hcn
      have hce := inv.count_eq c
      have h0 := hindeg0 c
      omega
  · intro d c hcd hcs
    rcases List.mem_append.mp hcs with hcsort | hccur
    · obtain ⟨a, b, hab, ha, hb⟩ := inv.topo d c hcd hcsort
      have halt : a < sorted.length := (List.getElem?_eq_some.mp ha).1
      have hblt : b < sorted.length := (List.getElem?_eq_some.mp hb).1
      exact ⟨a, b, hab, by rw [List.getElem?_append_left halt]; exact ha,
        by rw [List.getElem?_append_left hblt]; exact hb⟩
    · rw [List.mem_singleton] at hccur
      subst hccur
      have hds : d ∈ sorted := inv.ready c (List.mem_cons_self _ _) d hcd
      obtain ⟨a, ha⟩ := List.getElem?_of_mem hds
      have halt : a < sorted.length := (List.getElem?_eq_some.mp ha).1
      exact ⟨a, sorted.length, halt,
        by rw [List.getElem?_append_left halt]; exact ha,
        List.getElem?_concat_length sorted c⟩
  · intro x hxnodes hx0
    rw [hi x] at hx0
    by_cases hiz : i x = 0
    · have hmem := inv.zero_mem x hxnodes hiz
      rw [hre] at hmem
      rcases List.mem_append.mp hmem with h | h
      · exact List.mem_append.mpr (Or.inl h)
      · exact List.mem_append.mpr (Or.inr (List.mem_append.mpr (Or.inl h)))
    · have hxn : x ∈ newlyOf (g current) i := by
        rw [mem_newlyOf]
        omega
      exact List.mem_append.mpr (Or.inr (List.mem_append.mpr (Or.inr hxn)))

theorem kahnRun_inv (g : Ident → List Ident) (indeg0 : Ident → Int)
    (nodes : List Ident)
    (hsrc : ∀ d, d ∉ nodes → g d = [])
    (htgt : ∀ d x, x ∈ g d → x ∈ nodes)
    (hnd : nodes.Nodup)
    (hindeg0 : ∀ x, indeg0 x = (cnt g x nodes : Int)) :
    ∀ (fuel : Nat) (queue sorted : List Ident) (i : Ident → Int),
      KahnInv g indeg0 nodes queue sorted i →
      KahnInv g indeg0 nodes (kahnRun g fuel queue i sorted).2.1
        (kahnRun g fuel queue i sorted).1 (kahnRun g fuel queue i sorted).2.2 := by
  intro fuel
  induction fuel with
  | zero => intro queue sorted i h; simpa [kahnRun] using h
  | succ fuel ih =>
    intro queue sorted i h
    cases queue with
    | nil => simpa [kahnRun] using h
    | cons current rest =>
      simp only [kahnRun]
      exact ih _ _ _
        (kahnInv_step g indeg0 nodes hsrc htgt hnd hindeg0 current rest sorted i h)

theorem kahnInv_init (g : Ident → List Ident) (indeg0 : Ident → Int)
    (nodes : List Ident)
    (hsrc : ∀ d, d ∉ nodes → g d = [])
    (hnd : nodes.Nodup)
    (hindeg0 : ∀ x, indeg0 x = (cnt g x nodes : Int)) :
    KahnInv g indeg0 nodes (nodes.filter (fun n => indeg0 n = 0)) [] indeg0 := by
  refine ⟨?_, ?_, ?_, ?_, ?_, ?_, ?_⟩
  · simpa using hnd.filter _
  · intro x hx
    simp only [List.nil_append] at hx
    exact (List.mem_filter.mp hx).1
  · intro x hx
    simp only [List.nil_append] at hx
    have := (List.mem_filter.mp hx).2
    simp only [decide_eq_true_eq] at this
    omega
  · intro x
    simp [cnt_nil]
  · intro c hc d hcd
    exfalso
    have hc0 : indeg0 c = 0 := by
      have := (List.mem_filter.mp hc).2
      simpa using this
    have hcnt : cnt g c nodes = 0 := by
      have := hindeg0 c
      omega
    have hd : d ∈ nodes := by
      by_contra hdn
      rw [hsrc d hdn] at hcd
      exact absurd hcd (List.not_mem_nil c)
    have h1 : 0 < (g d).count c := List.count_pos_iff.mpr hcd
    have h2 : (g d).count c ≤ cnt g c nodes := count_le_cnt g c d nodes hd
    omega
  · intro d c _ hcs
    exact absurd hcs (List.not_mem_nil c)
  · intro x hxnodes hx0
    simp only [List.nil_append]
    rw [List.mem_filter]
    exact ⟨hxnodes, by simpa using hx0⟩

theorem kahnRun_no_edges (g : Ident → List Ident) (hg : ∀ d, g d = []) :
    ∀ (fuel : Nat) (queue : List Ident) (i : Ident → Int) (sorted : List Ident),
      queue.length ≤ fuel →
      kahnRun g fuel queue i sorted = (sorted ++ queue, [], i) := by
  intro fuel
  induction fuel with
  | zero =>
    intro queue i sorted h
    have : queue = [] := by
      cases queue with
      | nil => rfl
      | cons a t => simp [List.length_cons] at h
    subst this
    simp [kahnRun]
  | succ fuel ih =>
    intro queue i sorted h
    cases queue with
    | nil => simp [kahnRun]
    | cons current rest =>
      simp only [kahnRun, hg current, processNeighbors]
      rw [ih rest i (sorted ++ [current]) (by simp at h; omega)]
      simp

/-! ## Lemmas: the assembled resolver -/

theorem graphOf_src (all : List ChangeLog) (applied : List Ident) :
    ∀ d, d ∉ nodesOf all applied → graphOf all applied d = [] :=
  (buildOk_graphOf all applied).1

theorem graphOf_tgt (all : List ChangeLog) (applied : List Ident) :
    ∀ d x, x ∈ graphOf all applied d → x ∈ nodesOf all applied :=
  (buildOk_graphOf all applied).2.1

theorem indeg0Of_eq_cnt (all : List ChangeLog) (applied : List Ident) :
    ∀ x, indeg0Of all applied x = (cnt (graphOf all applied) x (nodesOf all applied) : Int) :=
  (buildOk_graphOf all applied).2.2

/-- The Kahn loop of get_unapplied_changes drains its queue (the fuel
bound suffices) and its final state satisfies the loop invariant. -/
theorem kahn_final (all : List ChangeLog) (applied : List Ident) :
    (kahnResultOf all applied).2.1 = [] ∧
      KahnInv (graphOf all applied) (indeg0Of all applied) (nodesOf all applied)
        (kahnResultOf all applied).2.1 (sortedOf all applied)
        (indegFOf all applied) := by
  constructor
  · exact kahnRun_completes (graphOf all applied) (nodesOf all applied)
      (nodup_nodesOf all applied) (graphOf_tgt all applied)
      (kahnFuel (nodesOf all applied) (queue0Of all applied) (indeg0Of all applied))
      (queue0Of all applied) (indeg0Of all applied) [] (Nat.le_of_eq rfl)
  · exact kahnRun_inv (graphOf all applied) (indeg0Of all applied)
      (nodesOf all applied) (graphOf_src all applied) (graphOf_tgt all applied)
      (nodup_nodesOf all applied) (indeg0Of_eq_cnt all applied) _ _ _ _
      (kahnInv_init (graphOf all applied) (indeg0Of all applied)
        (nodesOf all applied) (graphOf_src all applied)
        (nodup_nodesOf all applied) (indeg0Of_eq_cnt all applied))

theorem sortedOf_nodup (all : List ChangeLog) (applied : List Ident) :
    (sortedOf all applied).Nodup := by
  have h := (kahn_final all applied).2.nodup
  rw [(kahn_final all applied).1] at h
  simpa using h

theorem sortedOf_subset (all : List ChangeLog) (applied : List Ident) :
    ∀ x ∈ sortedOf all applied, x ∈ nodesOf all applied := by
  intro x hx
  exact (kahn_final all applied).2.mem_nodes x (List.mem_append.mpr (Or.inl hx))

theorem sortedOf_length_le (all : List ChangeLog) (applied : List Ident) :
    (sortedOf all applied).length ≤ (nodesOf all applied).length :=
  List.Subperm.length_le
    ((sortedOf_nodup all applied).subperm (fun _ h => sortedOf_subset all applied _ h))

theorem sortedOf_perm_of_length_eq (all : List ChangeLog) (applied : List Ident)
    (h : (sortedOf all applied).length = (nodesOf all applied).length) :
    List.Perm (sortedOf all applied) (nodesOf all applied) :=
  List.Subperm.perm_of_length_le
    ((sortedOf_nodup all applied).subperm (fun _ hx => sortedOf_subset all applied _ hx))
    (Nat.le_of_eq h.symm)

/-- A node left unsorted by the Kahn loop still has positive in-degree:
it is part of an unresolved cycle. -/
theorem unsorted_pos_indeg (all : List ChangeLog) (applied : List Ident)
    (x : Ident) (hx : x ∈ nodesOf all applied) (hnot : x ∉ sortedOf all applied) :
    0 < indegFOf all applied x := by
  obtain ⟨hqF, inv⟩ := kahn_final all applied
  have hce := inv.count_eq x
  have h0 := indeg0Of_eq_cnt all applied x
  have hle : cnt (graphOf all applied) x (sortedOf all applied)
      ≤ cnt (graphOf all applied) x (nodesOf all applied) :=
    cnt_le_of_nodup_subset _ _ _ _ (sortedOf_nodup all applied)
      (fun _ h => sortedOf_subset all applied _ h)
  have hnz : indegFOf all applied x ≠ 0 := by
    intro hz
    have := inv.zero_mem x hx hz
    rw [hqF] at this
    simp only [List.append_nil] at this
    exact hnot this
  omega

/-- Every topologically sorted node resolves through change_lookup to a
change carrying exactly that identity. -/
theorem changeLookup_of_mem_defined (all : List ChangeLog) (n : Ident)
    (h : n ∈ definedIdents all) :
    ∃ ch, changeLookup all n = some ch ∧ changeIdent ch = n := by
  rw [definedIdents, List.mem_map] at h
  obtain ⟨c, hc, hident⟩ := h
  have hmem : c ∈ all.filter (fun c => changeIdent c = n) := by
    rw [List.mem_filter]
    exact ⟨hc, by simpa using hident⟩
  have hne : all.filter (fun c => changeIdent c = n) ≠ [] := List.ne_nil_of_mem hmem
  refine ⟨(all.filter (fun c => changeIdent c = n)).getLast hne, ?_, ?_⟩
  · exact List.getLast?_eq_getLast_of_ne_nil hne
  · have := List.getLast_mem hne
    have := (List.mem_filter.mp this).2
    simpa using this

theorem filterMap_lookup_map_ident (all : List ChangeLog) :
    ∀ l : List Ident, (∀ n ∈ l, n ∈ definedIdents all) →
      (l.filterMap (changeLookup all)).map changeIdent = l := by
  intro l
  induction l with
  | nil => intro _; simp
  | cons n rest ih =>
    intro h
    obtain ⟨ch, hch, hident⟩ :=
      changeLookup_of_mem_defined all n (h n (List.mem_cons_self _ _))
    simp only [List.filterMap_cons, hch, List.map_cons, hident]
    rw [ih (fun m hm => h m (List.mem_cons_of_mem _ hm))]

theorem nodesOf_subset_defined (all : List ChangeLog) (applied : List Ident) :
    ∀ n ∈ nodesOf all applied, n ∈ definedIdents all := by
  intro n hn
  rw [mem_nodesOf_iff, List.mem_map] at hn
  obtain ⟨c, hc, hident⟩ := hn
  rw [definedIdents, List.mem_map]
  exact ⟨c, List.mem_of_mem_filter hc, hident⟩

theorem count_eq_one_of_nodup_mem {l : List Ident} {a : Ident}
    (hnd : l.Nodup) (ha : a ∈ l) : l.count a = 1 := by
  induction l with
  | nil => exact absurd ha (List.not_mem_nil a)
  | cons b t ih =>
    rw [List.count_cons]
    rcases List.mem_cons.mp ha with rfl | hat
    · have ht : t.count a = 0 := by
        rw [List.count_eq_zero]
        exact (List.nodup_cons.mp hnd).1
      simp [ht]
    · have hba : (b == a) = false := by
        simp only [beq_eq_false_iff_ne, ne_eq]
        rintro rfl
        exact (List.nodup_cons.mp hnd).1 hat
      rw [ih (List.nodup_cons.mp hnd).2 hat, hba]
      simp

/-! ## Claim theorems: the dependency resolver -/

/-- C1: whenever resolution succeeds, the resolved sequence contains every
pending change's identity exactly once, and for every active edge D → C
the identity D appears strictly before the identity C in the sequence. -/
theorem c1_resolved_sequence_complete_and_ordered
    (all : List ChangeLog) (applied : List Ident) (res : List ChangeLog)
    (h : get_unapplied_changes all applied = .ok res) :
    (∀ ch ∈ pendingOf all applied, (res.map changeIdent).count (changeIdent ch) = 1)
    ∧ ∀ d c : Ident, ActiveEdge all applied d c → Before (res.map changeIdent) d c := by
  simp only [get_unapplied_changes] at h
  by_cases hp : pendingOf all applied = []
  · rw [if_pos hp] at h
    have hres : res = [] := by
      injection h with h2
      exact h2.symm
    subst hres
    constructor
    · intro ch hch
      rw [hp] at hch
      exact absurd hch (List.not_mem_nil ch)
    · intro d c hedge
      obtain ⟨ch, hch, _⟩ := hedge
      rw [hp] at hch
      exact absurd hch (List.not_mem_nil ch)
  · rw [if_neg hp] at h
    by_cases hlen : (sortedOf all applied).length ≠ (nodesOf all applied).length
    · rw [if_pos hlen] at h
      by_cases hcy : (nodesOf all applied).filter
          (fun n => 0 < indegFOf all applied n) ≠ []
      · rw [if_pos hcy] at h
        exact absurd h (by simp)
      · rw [if_neg hcy] at h
        exact absurd h (by simp)
    · rw [if_neg hlen] at h
      push_neg at hlen
      have hres : res = (sortedOf all applied).filterMap (changeLookup all) := by
        injection h with h2
        exact h2.symm
      subst hres
      have hmapid : ((sortedOf all applied).filterMap (changeLookup all)).map changeIdent
          = sortedOf all applied :=
        filterMap_lookup_map_ident all _ (fun n hn =>
          nodesOf_subset_defined all applied n (sortedOf_subset all applied n hn))
      rw [hmapid]
      have hperm := sortedOf_perm_of_length_eq all applied hlen
      constructor
      · intro ch hch
        have hmemn : changeIdent ch ∈ nodesOf all applied :=
          (mem_nodesOf_iff all applied _).mpr (List.mem_map_of_mem _ hch)
        exact count_eq_one_of_nodup_mem (sortedOf_nodup all applied)
          (hperm.mem_iff.mpr hmemn)
      · intro d c hedge
        have hcg : c ∈ graphOf all applied d := (mem_graphOf_iff all applied d c).mpr hedge
        have hcn : c ∈ nodesOf all applied := graphOf_tgt all applied d c hcg
        have hcs : c ∈ sortedOf all applied := hperm.mem_iff.mpr hcn
        exact (kahn_final all applied).2.topo d c hcg hcs

/-- Witness for C1: the three-change chain resolves to A, B, C and the
conclusions hold there. -/
theorem c1_resolved_sequence_complete_and_ordered_witness :
    get_unapplied_changes exChain [] = .ok exChainRes
    ∧ ((∀ ch ∈ pendingOf exChain [],
          (exChainRes.map changeIdent).count (changeIdent ch) = 1)
        ∧ ∀ d c : Ident, ActiveEdge exChain [] d c →
            Before (exChainRes.map changeIdent) d c) :=
  ⟨by decide,
    c1_resolved_sequence_complete_and_ordered exChain [] exChainRes (by decide)⟩

/-- C2: an edge D → C exists in the resolver's graph exactly when a
pending change with identity C declares a dependency D that is defined in
the loaded graph and not applied; each edge increments C's in-degree, so
the initial in-degree is the number of active edges into C; and when every
declared reference of every pending change is unknown or already applied,
no edge exists and resolution succeeds, scheduling every pending change. -/
theorem c2_active_edge_rule (all : List ChangeLog) (applied : List Ident) :
    (∀ d c : Ident, c ∈ graphOf all applied d ↔ ActiveEdge all applied d c)
    ∧ (∀ c : Ident, indeg0Of all applied c
        = (cnt (graphOf all applied) c (nodesOf all applied) : Int))
    ∧ ((∀ ch ∈ pendingOf all applied, ∀ dep ∈ ch.depends_on,
          ¬ activeDep all applied dep) →
        ∃ res, get_unapplied_changes all applied = .ok res
          ∧ res.map changeIdent = nodesOf all applied) := by
  refine ⟨mem_graphOf_iff all applied, indeg0Of_eq_cnt all applied, ?_⟩
  intro hnone
  have hempty : ∀ d, graphOf all applied d = [] := by
    intro d
    rw [List.eq_nil_iff_forall_not_mem]
    intro c hc
    rw [mem_graphOf_iff] at hc
    obtain ⟨ch, hch, _, dep, hdep, _, hact⟩ := hc
    exact hnone ch hch dep hdep hact
  have hzero : ∀ x, indeg0Of all applied x = 0 := by
    intro x
    rw [indeg0Of_eq_cnt]
    simp [cnt, hempty]
  have hqueue : queue0Of all applied = nodesOf all applied := by
    rw [queue0Of]
    refine List.filter_eq_self.mpr (fun a _ => ?_)
    simp [hzero a]
  have hkahn : kahnResultOf all applied
      = (nodesOf all applied, [], indeg0Of all applied) := by
    rw [kahnResultOf, hqueue]
    rw [kahnRun_no_edges (graphOf all applied) hempty _ _ _ _ ?_]
    · simp
    · exact Nat.le_add_right _ _
  have hsorted : sortedOf all applied = nodesOf all applied := by
    rw [sortedOf, hkahn]
  by_cases hp : pendingOf all applied = []
  · have hnodes : nodesOf all applied = [] := by
      rw [nodesOf, hp]
      rfl
    refine ⟨[], ?_, by simp [hnodes]⟩
    simp only [get_unapplied_changes]
    rw [if_pos hp]
  · refine ⟨(sortedOf all applied).filterMap (changeLookup all), ?_, ?_⟩
    · simp only [get_unapplied_changes]
      rw [if_neg hp, if_neg (by rw [hsorted]; exact fun h => h rfl)]
    · rw [filterMap_lookup_map_ident all _ (fun n hn =>
        nodesOf_subset_defined all applied n (sortedOf_subset all applied n hn))]
      exact hsorted

/-- Witness for C2: a change with one dangling and one already-applied
reference has no active dependencies and resolves successfully. -/
theorem c2_active_edge_rule_witness :
    (∀ ch ∈ pendingOf exMixed exMixedApplied, ∀ dep ∈ ch.depends_on,
        ¬ activeDep exMixed exMixedApplied dep)
    ∧ ∃ res, get_unapplied_changes exMixed exMixedApplied = .ok res
        ∧ res.map changeIdent = nodesOf exMixed exMixedApplied :=
  ⟨by decide, (c2_active_edge_rule exMixed exMixedApplied).2.2 (by decide)⟩

/-- C3: resolution fails exactly when the Kahn loop sorts fewer nodes than
there are pending identities, and the error is always the cyclic error
naming exactly the pending identities whose in-degree is still positive
after the loop, a nonempty set. -/
theorem c3_cycle_error_characterization (all : List ChangeLog) (applied : List Ident) :
    ((∃ e, get_unapplied_changes all applied = .error e)
        ↔ (sortedOf all applied).length < (nodesOf all applied).length)
    ∧ ∀ e, get_unapplied_changes all applied = .error e →
        e = ResolveError.cyclic
            ((nodesOf all applied).filter (fun n => 0 < indegFOf all applied n))
        ∧ (nodesOf all applied).filter (fun n => 0 < indegFOf all applied n) ≠ [] := by
  have key : (sortedOf all applied).length ≠ (nodesOf all applied).length →
      (nodesOf all applied).filter (fun n => 0 < indegFOf all applied n) ≠ [] := by
    intro hne
    have hex : ∃ x ∈ nodesOf all applied, x ∉ sortedOf all applied := by
      by_contra hall
      push_neg at hall
      have hsp := (nodup_nodesOf all applied).subperm hall
      have := hsp.length_le
      have := sortedOf_length_le all applied
      omega
    obtain ⟨x, hxn, hxs⟩ := hex
    have hpos := unsorted_pos_indeg all applied x hxn hxs
    refine List.ne_nil_of_mem (a := x) ?_
    rw [List.mem_filter]
    exact ⟨hxn, by simpa using hpos⟩
  by_cases hp : pendingOf all applied = []
  · have hnodes : nodesOf all applied = [] := by
      rw [nodesOf, hp]
      rfl
    have hok : get_unapplied_changes all applied = .ok [] := by
      simp only [get_unapplied_changes]
      rw [if_pos hp]
    constructor
    · constructor
      · rintro ⟨e, he⟩
        rw [hok] at he
        exact absurd he (by simp)
      · intro hlt
        rw [hnodes] at hlt
        simp at hlt
    · intro e he
      rw [hok] at he
      exact absurd he (by simp)
  · by_cases hlen : (sortedOf all applied).length ≠ (nodesOf all applied).length
    · have hfil := key hlen
      have herr : get_unapplied_changes all applied
          = .error (.cyclic ((nodesOf all applied).filter
              (fun n => 0 < indegFOf all applied n))) := by
        simp only [get_unapplied_changes]
        rw [if_neg hp, if_pos hlen, if_pos hfil]
      constructor
      · constructor
        · intro _
          exact lt_of_le_of_ne (sortedOf_length_le all applied) hlen
        · intro _
          exact ⟨_, herr⟩
      · intro e he
        rw [herr] at he
        injection he with h2
        exact ⟨h2.symm, hfil⟩
    · push_neg at hlen
      have hok : get_unapplied_changes all applied
          = .ok ((sortedOf all applied).filterMap (changeLookup all)) := by
        simp only [get_unapplied_changes]
        rw [if_neg hp, if_neg (by rw [hlen]; exact fun h => h rfl)]
      constructor
      · constructor
        · rintro ⟨e, he⟩
          rw [hok] at he
          exact absurd he (by simp)
        · intro hlt
          omega
      · intro e he
        rw [hok] at he
        exact absurd he (by simp)

/-- Witness for C3: the two-cycle X, Y fails with the cyclic error naming
both identities, which matches the positive in-degree filter. -/
theorem c3_cycle_error_characterization_witness :
    get_unapplied_changes exCycle []
      = .error (.cyclic [("master.yaml", "X"), ("master.yaml", "Y")])
    ∧ (ResolveError.cyclic [("master.yaml", "X"), ("master.yaml", "Y")]
        = ResolveError.cyclic
            ((nodesOf exCycle []).filter (fun n => 0 < indegFOf exCycle [] n))
        ∧ (nodesOf exCycle []).filter (fun n => 0 < indegFOf exCycle [] n) ≠ []) :=
  ⟨by decide,
    (c3_cycle_error_characterization exCycle []).2
      (.cyclic [("master.yaml", "X"), ("master.yaml", "Y")]) (by decide)⟩

/-! ## Claim theorems: id generator, state table, applied-set query -/

theorem genRun_append (l₁ l₂ : List Int) :
    ∀ s : GenState, genRun (l₁ ++ l₂) s = genRun l₁ s ++ genRun l₂ (genStateAfter l₁ s) := by
  induction l₁ with
  | nil => intro s; simp [genRun, genStateAfter]
  | cons t rest ih =>
    intro s
    show (generate_unique_id_int t s).1
        :: genRun (rest ++ l₂) (generate_unique_id_int t s).2 = _
    rw [ih]
    rfl

theorem generate_same_ms (t c : Int) :
    generate_unique_id_int t ⟨t, c⟩ = (t * 1000 + (c + 1), ⟨t, c + 1⟩) := by
  simp [generate_unique_id_int]

theorem genStateAfter_replicate_same (t : Int) :
    ∀ (n : Nat) (c : Int),
      genStateAfter (List.replicate n t) ⟨t, c⟩ = ⟨t, c + n⟩ := by
  intro n
  induction n with
  | zero => intro c; simp [genStateAfter]
  | succ n ih =>
    intro c
    rw [List.replicate_succ]
    show genStateAfter (List.replicate n t) (generate_unique_id_int t ⟨t, c⟩).2 = _
    rw [generate_same_ms, ih]
    congr 1
    push_cast
    ring

theorem genRun_replicate_same (t : Int) :
    ∀ (n : Nat) (c : Int),
      genRun (List.replicate n t) ⟨t, c⟩
        = (List.range n).map (fun k : Nat => t * 1000 + (c + 1 + (k : Int))) := by
  intro n
  induction n with
  | zero => intro c; simp [genRun]
  | succ n ih =>
    intro c
    rw [List.replicate_succ, List.range_succ_eq_map]
    show (generate_unique_id_int t ⟨t, c⟩).1 ::
        genRun (List.replicate n t) (generate_unique_id_int t ⟨t, c⟩).2 = _
    rw [generate_same_ms, ih]
    simp only [List.map_cons, List.map_map]
    congr 1
    · push_cast
      ring
    · refine List.map_congr_left (fun k _ => ?_)
      simp only [Function.comp]
      push_cast
      ring

/-- C9: refuted by the code; the 1001st call inside one millisecond and
the first call of the next millisecond return the same id 1000, so the
output sequence is not strictly increasing even though the observed clock
readings are non-decreasing. -/
theorem c9_same_millisecond_overflow_collides :
    (genRun (List.replicate 1001 0 ++ [1]) genInit)[1000]? = some 1000
    ∧ (genRun (List.replicate 1001 0 ++ [1]) genInit)[1001]? = some 1000 := by
  have hsplit : (1001 : Nat) = 1 + 1000 := by norm_num
  have hids : genRun (List.replicate 1001 0 ++ [1]) genInit
      = 0 :: ((List.range 1000).map (fun k : Nat => (1 : Int) + (k : Int)) ++ [1000]) := by
    rw [hsplit, List.replicate_add, List.replicate_one, List.cons_append]
    simp only [List.nil_append, List.cons_append]
    show (generate_unique_id_int 0 ⟨-1, 0⟩).1 ::
        genRun (List.replicate 1000 0 ++ [1]) (generate_unique_id_int 0 ⟨-1, 0⟩).2 = _
    have hfirst : generate_unique_id_int 0 ⟨-1, 0⟩ = (0, ⟨0, 0⟩) := by decide
    rw [hfirst]
    rw [genRun_append, genRun_replicate_same, genStateAfter_replicate_same]
    have hstate : (⟨0, (0 : Int) + ((1000 : Nat) : Int)⟩ : GenState) = ⟨0, 1000⟩ := by
      norm_num
    rw [hstate]
    have hlast : genRun [1] (⟨0, 1000⟩ : GenState) = [1000] := by decide
    rw [hlast]
    have hmapeq : (List.range 1000).map
          (fun k : Nat => (0 : Int) * 1000 + (0 + 1 + (k : Int)))
        = (List.range 1000).map (fun k : Nat => (1 : Int) + (k : Int)) := by
      refine List.map_congr_left (fun k _ => ?_)
      push_cast
      ring
    rw [hmapeq]
  rw [hids]
  have hlen : ((List.range 1000).map (fun k : Nat => (1 : Int) + (k : Int))).length
      = 1000 := by simp
  constructor
  · have hidx : (1000 : Nat) = 999 + 1 := by norm_num
    rw [hidx, List.getElem?_cons_succ, List.getElem?_append_left (by rw [hlen]; norm_num),
      List.getElem?_map]
    have hr : (List.range 1000)[999]? = some 999 := by
      rw [List.getElem?_range (by norm_num)]
    rw [hr]
    show some ((1 : Int) + ((999 : Nat) : Int)) = some 1000
    norm_num
  · have hidx : (1001 : Nat) = 1000 + 1 := by norm_num
    rw [hidx, List.getElem?_cons_succ,
      List.getElem?_append_right (le_of_eq hlen)]
    rw [hlen]
    norm_num

theorem histIdent_successOps (op : HistOp) :
    ∀ l : List ChangeLog, op ∈ successOps l → histIdent op ∈ l.map changeIdent := by
  intro l
  induction l with
  | nil => intro h; exact absurd h (List.not_mem_nil op)
  | cons p rest ih =>
    intro h
    simp only [successOps] at h
    by_cases hp : p.type_ = "sql"
    · rw [if_pos hp] at h
      rcases List.mem_cons.mp h with rfl | h2
      · exact List.mem_cons_self _ _
      · rcases List.mem_cons.mp h2 with rfl | h3
        · exact List.mem_cons_self _ _
        · exact List.mem_cons_of_mem _ (ih h3)
    · rw [if_neg hp] at h
      exact List.mem_cons_of_mem _ (ih h)

/-- C4: when a run reports a nonzero result, the changes split into a
fully successful prefix, the failing sql change (recorded pending then
failed with the captured error), and an untouched suffix: the emitted
history writes are exactly the prefix's pending/success pairs followed by
the failing change's pending and failed writes, earlier successes keep
their success records, and no write mentions any later change. -/
theorem c4_fail_fast_abort (env : RunEnv) :
    ∀ (changes : List ChangeLog) (ops : List HistOp) (code : Nat),
      applyChanges env changes = (ops, code) → code ≠ 0 →
      ∃ pre c e post,
        changes = pre ++ c :: post
        ∧ c.type_ = "sql"
        ∧ attemptChange env c = .error e
        ∧ code = 1
        ∧ ops = successOps pre
            ++ [.insertPending c.id c.changelog_file,
                .setStatus c.id c.changelog_file "failed" e]
        ∧ (∀ p ∈ pre, p.type_ = "sql" →
            attemptChange env p = .ok ()
            ∧ HistOp.setStatus p.id p.changelog_file "success" "" ∈ ops)
        ∧ (∀ q ∈ post, changeIdent q ∉ pre.map changeIdent →
            changeIdent q ≠ changeIdent c →
            ∀ op ∈ ops, histIdent op ≠ changeIdent q) := by
  intro changes
  induction changes with
  | nil =>
    intro ops code h hfail
    simp only [applyChanges, Prod.mk.injEq] at h
    exact absurd h.2.symm hfail
  | cons c rest ih =>
    intro ops code h hfail
    simp only [applyChanges] at h
    by_cases hty : c.type_ = "sql"
    · rw [if_neg (not_not_intro hty)] at h
      cases hattm : attemptChange env c with
      | ok u =>
        rw [hattm] at h
        simp only [Prod.mk.injEq] at h
        obtain ⟨hops, hcode⟩ := h
        obtain ⟨pre, c', e, post, heq, hsql, hatt, hcode1, hops', hpre, hpost⟩ :=
          ih (applyChanges env rest).1 (applyChanges env rest).2 rfl (by omega)
        refine ⟨c :: pre, c', e, post, by rw [heq]; rfl, hsql, hatt, by omega, ?_, ?_, ?_⟩
        · rw [← hops]
          show HistOp.insertPending c.id c.changelog_file ::
              HistOp.setStatus c.id c.changelog_file "success" "" ::
                (applyChanges env rest).1
            = successOps (c :: pre) ++ _
          rw [hops']
          simp only [successOps, if_pos hty]
          rfl
        · intro p hp hpsql
          rcases List.mem_cons.mp hp with rfl | hp2
          · refine ⟨by rw [hattm], ?_⟩
            rw [← hops]
            exact List.mem_cons_of_mem _ (List.mem_cons_self _ _)
          · obtain ⟨hok, hmem⟩ := hpre p hp2 hpsql
            refine ⟨hok, ?_⟩
            rw [← hops]
            exact List.mem_cons_of_mem _ (List.mem_cons_of_mem _ hmem)
        · intro q hq hqpre hqc op hop
          have hqpre2 : changeIdent q ∉ pre.map changeIdent := by
            intro hmem
            exact hqpre (List.mem_cons_of_mem _ hmem)
          have hqhead : changeIdent q ≠ changeIdent c := by
            intro heq2
            exact hqpre (by rw [heq2]; exact List.mem_cons_self _ _)
          rw [← hops] at hop
          rcases List.mem_cons.mp hop with rfl | hop2
          · exact fun hcontra => hqhead hcontra.symm
          · rcases List.mem_cons.mp hop2 with rfl | hop3
            · exact fun hcontra => hqhead hcontra.symm
            · exact hpost q hq hqpre2 hqc op hop3
      | error e =>
        rw [hattm] at h
        simp only [Prod.mk.injEq] at h
        obtain ⟨hops, hcode⟩ := h
        refine ⟨[], c, e, rest, rfl, hty, hattm, hcode.symm, ?_, ?_, ?_⟩
        · rw [← hops]
          rfl
        · intro p hp
          exact absurd hp (List.not_mem_nil p)
        · intro q hq hqpre hqc op hop
          rw [← hops] at hop
          rcases List.mem_cons.mp hop with rfl | hop2
          · exact fun hcontra => hqc (hcontra.symm)
          · rcases List.mem_cons.mp hop2 with rfl | hop3
            · exact fun hcontra => hqc (hcontra.symm)
            · exact absurd hop3 (List.not_mem_nil op)
    · rw [if_pos hty] at h
      obtain ⟨pre, c', e, post, heq, hsql, hatt, hcode1, hops', hpre, hpost⟩ :=
        ih ops code h hfail
      refine ⟨c :: pre, c', e, post, by rw [heq]; rfl, hsql, hatt, hcode1, ?_, ?_, ?_⟩
      · rw [hops']
        simp only [successOps, if_neg hty]
      · intro p hp hpsql
        rcases List.mem_cons.mp hp with rfl | hp2
        · exact absurd hpsql hty
        · exact hpre p hp2 hpsql
      · intro q hq hqpre hqc op hop
        have hqpre2 : changeIdent q ∉ pre.map changeIdent := by
          intro hmem
          exact hqpre (List.mem_cons_of_mem _ hmem)
        exact hpost q hq hqpre2 hqc op hop

/-- Witness for C4: with rendering fine everywhere and execution failing
on change B, the run over A, B, C stops after failing B: A has pending and
success writes, B has pending and failed writes, C has none, exit code 1. -/
theorem c4_fail_fast_abort_witness :
    applyChanges exEnv [exA, exB, exC]
      = ([.insertPending "A" "master.yaml", .setStatus "A" "master.yaml" "success" "",
          .insertPending "B" "master.yaml", .setStatus "B" "master.yaml" "failed" "boom"], 1)
    ∧ ∃ pre c e post,
        ([exA, exB, exC] : List ChangeLog) = pre ++ c :: post
        ∧ c.type_ = "sql"
        ∧ attemptChange exEnv c = .error e
        ∧ (1 : Nat) = 1
        ∧ ([HistOp.insertPending "A" "master.yaml",
            .setStatus "A" "master.yaml" "success" "",
            .insertPending "B" "master.yaml",
            .setStatus "B" "master.yaml" "failed" "boom"] : List HistOp)
          = successOps pre
            ++ [.insertPending c.id c.changelog_file,
                .setStatus c.id c.changelog_file "failed" e]
        ∧ (∀ p ∈ pre, p.type_ = "sql" →
            attemptChange exEnv p = .ok ()
            ∧ HistOp.setStatus p.id p.changelog_file "success" ""
              ∈ ([HistOp.insertPending "A" "master.yaml",
                  .setStatus "A" "master.yaml" "success" "",
                  .insertPending "B" "master.yaml",
                  .setStatus "B" "master.yaml" "failed" "boom"] : List HistOp))
        ∧ (∀ q ∈ post, changeIdent q ∉ pre.map changeIdent →
            changeIdent q ≠ changeIdent c →
            ∀ op ∈ ([HistOp.insertPending "A" "master.yaml",
                     .setStatus "A" "master.yaml" "success" "",
                     .insertPending "B" "master.yaml",
                     .setStatus "B" "master.yaml" "failed" "boom"] : List HistOp),
              histIdent op ≠ changeIdent q) :=
  ⟨by decide, c4_fail_fast_abort exEnv [exA, exB, exC] _ 1 (by decide) (by decide)⟩

/-- C5: refuted by the code; the terminal-status transition of
update_status matches rows by (change_id, changelog_path) only, so a row
left over from an earlier failed attempt of the same identity is rewritten
to success together with the current attempt's pending row. -/
theorem c5_update_status_rewrites_prior_attempts :
    update_status
      [⟨1, "X", "f.yaml", "failed", "boom"⟩, ⟨2, "X", "f.yaml", "pending", ""⟩]
      "X" "f.yaml" "success" none
      = [⟨1, "X", "f.yaml", "success", ""⟩, ⟨2, "X", "f.yaml", "success", ""⟩] := by
  decide

/-- C7: a failing applied-set query is swallowed: the applied set becomes
empty so every defined change is pending, the warning is emitted, and no
exception propagates. -/
theorem c7_history_query_failure_fails_open (all : List ChangeLog)
    (q : Except String (List Ident)) (e : String) (hq : q = .error e) :
    (get_applied_changes_from_state_manager true q).1 = []
    ∧ pendingOf all (get_applied_changes_from_state_manager true q).1 = all
    ∧ (get_applied_changes_from_state_manager true q).2 = true := by
  subst hq
  refine ⟨rfl, ?_, rfl⟩
  show pendingOf all [] = all
  rw [pendingOf]
  refine List.filter_eq_self.mpr (fun a _ => ?_)
  simp

/-- Witness for C7: a concrete failing query leaves the single defined
change pending and sets the warning flag. -/
theorem c7_history_query_failure_fails_open_witness :
    (get_applied_changes_from_state_manager true (.error "connection refused")).1 = []
    ∧ pendingOf [exA]
        (get_applied_changes_from_state_manager true (.error "connection refused")).1 = [exA]
    ∧ (get_applied_changes_from_state_manager true (.error "connection refused")).2 = true :=
  c7_history_query_failure_fails_open [exA] (.error "connection refused")
    "connection refused" rfl

/-! ## Claim theorems: the graph loader -/

/-- C10: a changelog file whose parsed document is not a mapping defines
zero changes: its traversal returns successfully with the accumulated
change list untouched, only recording the visited path. -/
theorem c10_non_mapping_defines_zero_changes
    (fs : FS) (root : String) (fuel : Nat) (filepath : String)
    (acc : List ChangeLog) (processed : List String)
    (hdoc : fs.content filepath = .notDict)
    (hfresh : pyRelpath filepath root ∉ processed)
    (hfuel : 0 < fuel) :
    parseFileRec fs root fuel filepath acc processed
      = .ok (acc, processed ++ [pyRelpath filepath root]) := by
  cases fuel with
  | zero => exact absurd hfuel (by norm_num)
  | succ n =>
    simp only [parseFileRec]
    rw [if_neg hfresh, hdoc]
    rfl

/-- Witness for C10: a master changelog parsing to a non-mapping document
loads successfully with zero changes. -/
theorem c10_non_mapping_defines_zero_changes_witness :
    scalarFS.content "root/master.yaml" = .notDict
    ∧ pyRelpath "root/master.yaml" "root" ∉ ([] : List String)
    ∧ parseFileRec scalarFS "root" 1 "root/master.yaml" [] []
        = .ok ([], [] ++ [pyRelpath "root/master.yaml" "root"]) :=
  ⟨rfl, by decide,
    c10_non_mapping_defines_zero_changes scalarFS "root" 1 "root/master.yaml" [] []
      rfl (by decide) (by decide)⟩

theorem parseEntries_prefix (fs : FS)
    (recFile : String → List ChangeLog → List String →
      Except ParseErr (List ChangeLog × List String))
    (hrec : ∀ fp acc2 pr2 out2, recFile fp acc2 pr2 = .ok out2 →
      ∃ ext, out2.1 = acc2 ++ ext)
    (filepath rel : String) :
    ∀ (entries : List RawEntry) (k : Nat) (acc : List ChangeLog)
      (processed : List String) (out : List ChangeLog × List String),
      parseEntries fs recFile filepath rel k entries acc processed = .ok out →
      ∃ ext, out.1 = acc ++ ext := by
  intro entries
  induction entries with
  | nil =>
    intro k acc processed out h
    simp only [parseEntries] at h
    injection h with h2
    exact ⟨[], by rw [← h2]; simp⟩
  | cons e restE ihe =>
    intro k acc processed out h
    simp only [parseEntries] at h
    split at h
    · exact absurd h (by simp)
    · split at h
      · split at h
        · exact absurd h (by simp)
        · split at h
          · obtain ⟨ext, hext⟩ := ihe _ _ _ _ h
            exact ⟨_, by rw [hext, List.append_assoc]⟩
          · exact absurd h (by simp)
      · split at h
        · split at h
          · exact absurd h (by simp)
          · split at h
            · split at h
              · exact absurd h (by simp)
              · next ap heq2 =>
                obtain ⟨ext2, hext2⟩ := ihe _ _ _ _ h
                obtain ⟨ext1, hext1⟩ := hrec _ _ _ _ heq2
                exact ⟨ext1 ++ ext2, by rw [hext2, hext1]; simp⟩
            · exact absurd h (by simp)
        · exact absurd h (by simp)

theorem parseFileRec_prefix (fs : FS) (root : String) :
    ∀ (fuel : Nat) (fp : String) (acc : List ChangeLog) (pr : List String)
      (out : List ChangeLog × List String),
      parseFileRec fs root fuel fp acc pr = .ok out → ∃ ext, out.1 = acc ++ ext := by
  intro fuel
  induction fuel with
  | zero =>
    intro fp acc pr out h
    exact absurd h (by simp [parseFileRec])
  | succ n ih =>
    intro fp acc pr out h
    simp only [parseFileRec] at h
    split at h
    · injection h with h2
      exact ⟨[], by rw [← h2]; simp⟩
    · exact parseEntries_prefix fs _ (fun fp2 acc2 pr2 out2 h2 => ih fp2 acc2 pr2 out2 h2)
        fp _ _ _ _ _ _ h

theorem parseEntries_sql_default (fs : FS)
    (recFile : String → List ChangeLog → List String →
      Except ParseErr (List ChangeLog × List String))
    (hrec : ∀ fp acc2 pr2 out2, recFile fp acc2 pr2 = .ok out2 →
      ∃ ext, out2.1 = acc2 ++ ext)
    (filepath rel : String) :
    ∀ (entries : List RawEntry) (k : Nat) (acc : List ChangeLog)
      (processed : List String) (out : List ChangeLog × List String),
      parseEntries fs recFile filepath rel k entries acc processed = .ok out →
      ∀ (j : Nat) (e : RawEntry), entries[j]? = some e →
        e.type_ = some "sql" → falsy e.id = true →
        ∃ f deps, e.file = some f ∧
          (⟨derivedId f (k + j), "sql", e.description,
            pyJoin (pyDirname filepath) f, deps, rel, k + j⟩ : ChangeLog) ∈ out.1 := by
  intro entries
  induction entries with
  | nil =>
    intro k acc processed out _ j e hj
    rw [List.getElem?_nil] at hj
    exact absurd hj (by simp)
  | cons e0 restE ihe =>
    intro k acc processed out h j e hj hsql hid
    simp only [parseEntries] at h
    split at h
    · exact absurd h (by simp)
    · next deps hdeps =>
      split at h
      · next hty =>
        split at h
        · exact absurd h (by simp)
        · next hfile =>
          split at h
          · cases j with
            | zero =>
              rw [List.getElem?_cons_zero] at hj
              injection hj with hje
              have hf : e.file = some (e0.file.getD "") := by
                rw [← hje]
                cases hfc : e0.file with
                | none => rw [hfc] at hfile; exact absurd rfl hfile
                | some s => rfl
              refine ⟨e0.file.getD "", deps, hf, ?_⟩
              obtain ⟨ext, hext⟩ :=
                parseEntries_prefix fs recFile hrec filepath rel restE (k + 1) _ _ _ h
              rw [hext]
              have hide0 : falsy e0.id = true := by rw [hje]; exact hid
              have hch : entryChangeId e0 k (e0.file.getD "")
                  = derivedId (e0.file.getD "") k := by
                rw [entryChangeId, if_pos hide0]
              have hdesc : e.description = e0.description := by rw [← hje]
              rw [Nat.add_zero, hdesc, ← hch]
              exact List.mem_append.mpr (Or.inl (List.mem_append.mpr
                (Or.inr (List.mem_singleton_self _))))
            | succ j0 =>
              rw [List.getElem?_cons_succ] at hj
              obtain ⟨f, deps2, hf, hmem⟩ := ihe (k + 1) _ _ _ h j0 e hj hsql hid
              refine ⟨f, deps2, hf, ?_⟩
              have harith : k + 1 + j0 = k + (j0 + 1) := by omega
              rw [harith] at hmem
              exact hmem
          · exact absurd h (by simp)
      · next hty =>
        split at h
        · split at h
          · exact absurd h (by simp)
          · split at h
            · split at h
              · exact absurd h (by simp)
              · cases j with
                | zero =>
                  rw [List.getElem?_cons_zero] at hj
                  injection hj with hje
                  refine absurd ?_ hty
                  rw [hje]
                  exact hsql
                | succ j0 =>
                  rw [List.getElem?_cons_succ] at hj
                  obtain ⟨f, deps2, hf, hmem⟩ := ihe (k + 1) _ _ _ h j0 e hj hsql hid
                  refine ⟨f, deps2, hf, ?_⟩
                  have harith : k + 1 + j0 = k + (j0 + 1) := by omega
                  rw [harith] at hmem
                  exact hmem
            · exact absurd h (by simp)
        · exact absurd h (by simp)

/-- C8: a sql entry with no explicit id receives, in any successful
traversal of its file, the derived id consisting of the referenced
script's base name up to the first dot, an underscore, and the entry's
position index. -/
theorem c8_default_id_derivation (fs : FS) (root : String) (fuel : Nat)
    (filepath : String) (acc : List ChangeLog) (processed : List String)
    (out : List ChangeLog × List String)
    (h : parseFileRec fs root fuel filepath acc processed = .ok out)
    (hfresh : pyRelpath filepath root ∉ processed)
    (j : Nat) (e : RawEntry)
    (hj : (fs.content filepath).changesList[j]? = some e)
    (hsql : e.type_ = some "sql") (hid : falsy e.id = true) :
    ∃ f deps, e.file = some f ∧
      (⟨derivedId f j, "sql", e.description, pyJoin (pyDirname filepath) f,
        deps, pyRelpath filepath root, j⟩ : ChangeLog) ∈ out.1 := by
  cases fuel with
  | zero => exact absurd h (by simp [parseFileRec])
  | succ n =>
    simp only [parseFileRec] at h
    rw [if_neg hfresh] at h
    have hmain := parseEntries_sql_default fs _
      (fun fp2 acc2 pr2 out2 h2 => parseFileRec_prefix fs root n fp2 acc2 pr2 out2 h2)
      filepath _ _ 0 _ _ _ h j e hj hsql hid
    simpa using hmain

/-- Witness for C8: an entry referencing 001_init.sql with no explicit id
at position 0 receives the identifier 001_init_0. -/
theorem c8_default_id_derivation_witness :
    parseFileRec initFS "root" 2 "root/master.yaml" [] []
      = .ok ([⟨"001_init_0", "sql", "", "root/001_init.sql", [], "master.yaml", 0⟩],
             ["master.yaml"])
    ∧ ∃ f deps, (⟨some "sql", none, "", some "001_init.sql", []⟩ : RawEntry).file = some f
        ∧ (⟨derivedId f 0, "sql", "", pyJoin (pyDirname "root/master.yaml") f,
            deps, pyRelpath "root/master.yaml" "root", 0⟩ : ChangeLog)
          ∈ [(⟨"001_init_0", "sql", "", "root/001_init.sql", [], "master.yaml", 0⟩ : ChangeLog)] :=
  ⟨by decide,
    c8_default_id_derivation initFS "root" 2 "root/master.yaml" [] []
      ([⟨"001_init_0", "sql", "", "root/001_init.sql", [], "master.yaml", 0⟩],
        ["master.yaml"])
      (by decide) (by decide) 0 ⟨some "sql", none, "", some "001_init.sql", []⟩
      (by decide) rfl rfl⟩

/-- Counterexample for C6: a graph load with two changes sharing one
identity succeeds instead of failing, and the returned identities are not
pairwise distinct. -/
theorem c6_counterexample_duplicate_load_succeeds :
    get_all_changes (dupFS "dup") "root/master.yaml" 2 = .ok (dupChanges "dup")
    ∧ ¬ ((dupChanges "dup").map changeIdent).Nodup := by
  decide

/-- C6 amended: the loader performs no identity-uniqueness check: a master
changelog declaring the same explicit id twice loads successfully and
returns both changes, which carry equal identities. -/
theorem c6_amended_duplicates_not_rejected (idStr : String) (hid : idStr ≠ "") :
    get_all_changes (dupFS idStr) "root/master.yaml" 2 = .ok (dupChanges idStr)
    ∧ ∃ c1 c2 : ChangeLog, dupChanges idStr = [c1, c2]
        ∧ changeIdent c1 = changeIdent c2 := by
  constructor
  · have hfe : falsy (some idStr) = false := by simp [falsy, hid]
    have hfa : falsy (some "a.sql") = false := by decide
    have hroot : pyDirname "root/master.yaml" = "root" := by decide
    have hrel : pyRelpath "root/master.yaml" "root" = "master.yaml" := by decide
    have hjoin : pyJoin "root" "a.sql" = "root/a.sql" := by decide
    simp only [get_all_changes, dupFS, hroot]
    rw [if_pos (by decide)]
    simp only [parseFileRec, hrel]
    rw [if_neg (by simp)]
    simp only [parseEntries, parseDeps, dupEntry, YamlDoc.changesList, entryChangeId, hfe,
      hjoin, hroot, hrel]
    simp [dupChanges, hfa, hjoin]
    rfl
  · exact ⟨_, _, rfl, rfl⟩

/-- Witness for C6 amended: the duplicate id dup loads to two changes with
the same identity. -/
theorem c6_amended_duplicates_not_rejected_witness :
    ("dup" : String) ≠ ""
    ∧ (get_all_changes (dupFS "dup") "root/master.yaml" 2 = .ok (dupChanges "dup")
        ∧ ∃ c1 c2 : ChangeLog, dupChanges "dup" = [c1, c2]
            ∧ changeIdent c1 = changeIdent c2) :=
  ⟨by decide, c6_amended_duplicates_not_rejected "dup" (by decide)⟩
